import Mathlib

/-!
Verification of the minipy3 minimizer against its specification

Shallow embedding of `minipy3` (a Python source-code minimizer built on the
standard library's `ast._Unparser`).  Each definition is translated from the
repository sources (`src/minipy3/__init__.py`, `src/minipy3/semicolon.py`);
behaviour inherited from the standard-library base class `ast._Unparser`
(CPython 3.11 `ast.py`) is translated from that base class and marked as such.
The external parser collaborator (the spec's §6 input boundary) is modelled
from the spec where a claim needs it.

Strings are modelled as Lean `String` (Python `len` on `str` counts code
points, as does `String.length`).  Machine floats appear only in claim C3,
where the one relevant operation (conversion of an `int` to a binary64 float)
is modelled exactly over `Nat`.
-/

namespace Minipy3

/-! ## Python string primitives used by the minimizer -/

/-- The characters of Python's `string.whitespace` (`' \t\n\r\x0b\x0c'`). -/
def pyWhitespace : List Char := [' ', '\t', '\n', '\r', '\x0b', '\x0c']

/-- Python `s.rstrip(chars)`: remove trailing characters belonging to `cs`. -/
def pyRstrip (cs : List Char) (s : String) : String :=
  ⟨(s.toList.reverse.dropWhile (fun c => cs.contains c)).reverse⟩

/-- Python `s.lstrip(chars)`: remove leading characters belonging to `cs`. -/
def pyLstrip (cs : List Char) (s : String) : String :=
  ⟨s.toList.dropWhile (fun c => cs.contains c)⟩

/-- Python `s.strip(chars)`: remove leading and trailing characters in `cs`. -/
def pyStripSet (cs : List Char) (s : String) : String :=
  pyLstrip cs (pyRstrip cs s)

/-- Python `s.strip()` (no argument): strip whitespace from both ends. -/
def pyStrip (s : String) : String :=
  pyStripSet pyWhitespace s

/-- Split a character list at `'\n'` (accumulator holds the current piece,
reversed). -/
def splitNlAux : List Char → List Char → List String
  | [], acc => [String.mk acc.reverse]
  | c :: rest, acc =>
    if c = '\n' then String.mk acc.reverse :: splitNlAux rest []
    else splitNlAux rest (c :: acc)

/-- Python `s.splitlines()` for strings whose line terminator is `'\n'`
(the only terminator the printer emits): like splitting on `'\n'` but
without a trailing empty piece, and `""` gives `[]`. -/
def pySplitlines (s : String) : List String :=
  if s = "" then []
  else
    let ps := splitNlAux s.toList []
    if ps.getLast? = some "" then ps.dropLast else ps

/-- Python `'\n'.join(lines)`. -/
def joinNl : List String → String
  | [] => ""
  | [x] => x
  | x :: rest => x ++ "\n" ++ joinNl rest

/-- Python `s.endswith(t)` for a one-character suffix `t`. -/
def endsWithChar (c : Char) (s : String) : Bool :=
  s.toList.getLast? = some c

/-! ## `_get_indent` (src/minipy3/__init__.py lines 13-14)

`_get_indent(line) = len(line) - len(textwrap.dedent(line))`.  On a single
line, `textwrap.dedent` removes the leading run of `' '`/`'\t'` characters
(its margin regex is `[ \t]*`), except on a line consisting solely of
whitespace.  `post_process` only ever applies `_get_indent` to lines it has
already right-stripped of whitespace (and `';'`), so a whitespace-only line
has become empty and the leading-run formula below is exact for every call
site. -/

/-- `_get_indent`: length of the leading run of `' '`/`'\t'` characters. -/
def getIndent (s : String) : Nat :=
  (s.toList.takeWhile (fun c => c = ' ' ∨ c = '\t')).length

/-! ## `Minimize.post_process` (src/minipy3/__init__.py lines 72-94)

```python
@staticmethod
def post_process(source):
    lines = [line.rstrip(whitespace + ';') for line in source.splitlines()]
    ls2 = len(lines) - 2
    to_del = []
    for i in [i for i, l in enumerate(lines) if l.endswith(':')]:
        line = lines[i]
        back_line = lines[i + 1]
        try:
            next_line = lines[i + 2]
        except IndexError:
            next_line = ''
        it_line_tabs = _get_indent(line)
        if i != ls2 and (it_line_tabs >= _get_indent(back_line) or it_line_tabs < _get_indent(next_line)):
            continue
        lines[i] += back_line.strip()
        to_del.append(i + 1)
    offset = 0
    for i in to_del:
        i -= offset
        del lines[i]
        offset += 1
    return '\n'.join(lines)
```

The list of header indices is a snapshot taken before the loop mutates
`lines`.  `lines[i + 1]` is *not* inside the `try`, so a header on the last
line raises an uncaught `IndexError`: the embedding returns `none` there.
`len(lines) - 2` is Python integer arithmetic, hence modelled in `ℤ`. -/

/-- One iteration of the merge loop: state is the (mutated) line list and the
accumulated `to_del`; `none` models the uncaught `IndexError` from
`lines[i + 1]`, and `lines.getD (i + 2) ""` models the *caught* `IndexError`
that defaults `next_line` to `''`. -/
def mergeStep (ls2 : Int) (st : List String × List Nat) (i : Nat) :
    Option (List String × List Nat) :=
  match st.1[i + 1]? with
  | none => none
  | some backLine =>
    let lines := st.1
    let line := lines.getD i ""
    let nextLine := lines.getD (i + 2) ""
    let it := getIndent line
    if (i : Int) ≠ ls2 ∧ (it ≥ getIndent backLine ∨ it < getIndent nextLine) then
      some st
    else
      some (lines.set i (line ++ pyStrip backLine), st.2 ++ [i + 1])

/-- The rstripped line list `post_process` starts from. -/
def ppLines (source : String) : List String :=
  (pySplitlines source).map (pyRstrip (pyWhitespace ++ [';']))

/-- The snapshot of header indices: `[i for i, l in enumerate(lines) if l.endswith(':')]`. -/
def headerIdxs (lines : List String) : List Nat :=
  ((List.range lines.length).filter (fun i => endsWithChar ':' (lines.getD i "")))

/-- The merge loop of `post_process`: returns the mutated lines and `to_del`. -/
def mergeLoop (source : String) : Option (List String × List Nat) :=
  let lines := ppLines source
  let ls2 : Int := (lines.length : Int) - 2
  (headerIdxs lines).foldlM (mergeStep ls2) (lines, [])

/-- The deletion pass with index-offset correction, exactly as in the source. -/
def delPass (lines : List String) (toDel : List Nat) : List String :=
  (toDel.foldl (fun (p : List String × Nat) i => (p.1.eraseIdx (i - p.2), p.2 + 1))
    (lines, 0)).1

/-- `Minimize.post_process` (`none` = the uncaught `IndexError` on a header
that is the final line). -/
def postProcess (source : String) : Option String :=
  (mergeLoop source).map (fun p => joinNl (delPass p.1 p.2))


/-! ## Claim C4: the block-compaction merge condition

Facts proved below about `post_process`:
* `mergeStep` / the merge loop splice line `i + 1` onto header line `i`
  exactly when `i` is the second-to-last line (`i = len(lines) - 2`, in which
  case the indentation comparison is bypassed entirely), or the header's
  indentation is strictly less than the following line's and not strictly
  less than the line after that's (a missing line counting as empty).
-/

theorem takeWhile_append_of_exists {p : Char → Bool} {l₁ l₂ : List Char}
    (h : ∃ c ∈ l₁, ¬ p c) : (l₁ ++ l₂).takeWhile p = l₁.takeWhile p := by
  induction l₁ with
  | nil => obtain ⟨c, hc, _⟩ := h; simp at hc
  | cons a t ih =>
    by_cases hp : p a
    · have : ∃ c ∈ t, ¬ p c := by
        obtain ⟨c, hc, hcp⟩ := h
        rcases List.mem_cons.mp hc with rfl | hc
        · exact absurd hp hcp
        · exact ⟨c, hc, hcp⟩
      simp [List.takeWhile_cons, hp, ih this]
    · simp [List.takeWhile_cons, hp]

theorem getIndent_append_of_colon {s t : String} (h : endsWithChar ':' s = true) :
    getIndent (s ++ t) = getIndent s := by
  unfold getIndent
  have happ : (s ++ t).toList = s.toList ++ t.toList := by
    simp [String.toList]
  rw [happ, takeWhile_append_of_exists]
  refine ⟨':', ?_, by decide⟩
  exact List.mem_of_getLast?_eq_some (by simpa [endsWithChar] using h)

/-- Invariant of the merge loop: the current line list has the length of the
original rstripped lines, and each line is the original one, possibly (for a
colon-terminated header) extended on the right by merged body text.  The
loop's indentation reads are therefore those of the original lines. -/
def ExtOf (orig cur : List String) : Prop :=
  cur.length = orig.length ∧
    ∀ j, cur.getD j "" = orig.getD j "" ∨
      (endsWithChar ':' (orig.getD j "") = true ∧ ∃ u, cur.getD j "" = orig.getD j "" ++ u)

theorem extOf_refl (l : List String) : ExtOf l l := ⟨rfl, fun _ => Or.inl rfl⟩

theorem ExtOf.indent {orig cur : List String} (h : ExtOf orig cur) (j : Nat) :
    getIndent (cur.getD j "") = getIndent (orig.getD j "") := by
  rcases h.2 j with heq | ⟨hc, u, heq⟩
  · rw [heq]
  · rw [heq, getIndent_append_of_colon hc]

/-- The condition under which `post_process` actually splices line `i + 1`
onto header line `i` (`lines` are the rstripped lines of the source). -/
def spliceCond (lines : List String) (i : Nat) : Prop :=
  (i : Int) = (lines.length : Int) - 2 ∨
    (getIndent (lines.getD i "") < getIndent (lines.getD (i + 1) "") ∧
      ¬ getIndent (lines.getD i "") < getIndent (lines.getD (i + 2) ""))

instance (lines : List String) (i : Nat) : Decidable (spliceCond lines i) := by
  unfold spliceCond; infer_instance

theorem mergeStep_none {orig cur : List String} {td : List Nat} {ls2 : Int} {i : Nat}
    (hext : ExtOf orig cur) (hge : orig.length ≤ i + 1) :
    mergeStep ls2 (cur, td) i = none := by
  have hlen := hext.1
  unfold mergeStep
  have h : cur[i + 1]? = none := by
    rw [List.getElem?_eq_none_iff]
    omega
  simp [h]

theorem mergeStep_some {orig cur : List String} {td : List Nat} {i : Nat}
    (hext : ExtOf orig cur) (hhdr : endsWithChar ':' (orig.getD i "") = true)
    (hlt : i + 1 < orig.length) :
    ∃ cur', mergeStep ((orig.length : Int) - 2) (cur, td) i =
        some (cur', td ++ (if spliceCond orig i then [i + 1] else [])) ∧
      ExtOf orig cur' := by
  have hlen : cur.length = orig.length := hext.1
  have hb : (cur, td).1[i + 1]? = some (cur.getD (i + 1) "") := by
    show cur[i + 1]? = _
    rw [List.getElem?_eq_getElem (by omega)]
    simp [List.getD, List.getElem?_eq_getElem (show i + 1 < cur.length by omega)]
  unfold mergeStep
  rw [hb]
  simp only []
  have hii : getIndent (cur.getD i "") = getIndent (orig.getD i "") := hext.indent i
  have hib : getIndent (cur.getD (i + 1) "") = getIndent (orig.getD (i + 1) "") := hext.indent (i + 1)
  have hin : getIndent (cur.getD (i + 2) "") = getIndent (orig.getD (i + 2) "") := hext.indent (i + 2)
  by_cases hc : (i : Int) ≠ (orig.length : Int) - 2 ∧
      (getIndent (orig.getD i "") ≥ getIndent (orig.getD (i + 1) "") ∨
        getIndent (orig.getD i "") < getIndent (orig.getD (i + 2) ""))
  · have hnotsplice : ¬ spliceCond orig i := by
      unfold spliceCond; push_neg
      exact ⟨hc.1, fun h => by omega⟩
    refine ⟨cur, ?_, hext⟩
    rw [if_pos, if_neg hnotsplice]
    · simp
    · rw [hii, hib, hin]; exact hc
  · have hsplice : spliceCond orig i := by
      unfold spliceCond
      push_neg at hc
      by_cases he : (i : Int) = (orig.length : Int) - 2
      · exact Or.inl he
      · exact Or.inr (by specialize hc he; omega)
    refine ⟨cur.set i (cur.getD i "" ++ pyStrip (cur.getD (i + 1) "")), ?_, ?_⟩
    · rw [if_neg, if_pos hsplice]
      rw [hii, hib, hin]; exact hc
    · constructor
      · rw [List.length_set, hlen]
      · intro j
        by_cases hj : j = i
        · subst hj
          right
          refine ⟨hhdr, ?_⟩
          have hset : (cur.set j (cur.getD j "" ++ pyStrip (cur.getD (j + 1) ""))).getD j "" =
              cur.getD j "" ++ pyStrip (cur.getD (j + 1) "") := by
            simp [List.getD, List.getElem?_set_self (show j < cur.length by omega)]
          rw [hset]
          rcases hext.2 j with heq | ⟨_, u, heq⟩
          · exact ⟨pyStrip (cur.getD (j + 1) ""), by rw [heq]⟩
          · exact ⟨u ++ pyStrip (cur.getD (j + 1) ""), by rw [heq, String.append_assoc]⟩
        · have hset : (cur.set i (cur.getD i "" ++ pyStrip (cur.getD (i + 1) ""))).getD j "" =
              cur.getD j "" := by
            simp [List.getD, List.getElem?_set_ne (fun h => hj h.symm)]
          rw [hset]
          exact hext.2 j

theorem foldlM_mergeStep {orig : List String} :
    ∀ (hs : List Nat) {cur : List String} {td : List Nat} {res : List String × List Nat},
      ExtOf orig cur →
      (∀ i ∈ hs, endsWithChar ':' (orig.getD i "") = true) →
      hs.foldlM (mergeStep ((orig.length : Int) - 2)) (cur, td) = some res →
      res.2 = td ++ (hs.filter (fun i => decide (spliceCond orig i))).map (· + 1) := by
  intro hs
  induction hs with
  | nil =>
    intro cur td res hext _ hfold
    simp only [List.foldlM_nil] at hfold
    cases hfold
    simp
  | cons a t ih =>
    intro cur td res hext hhdr hfold
    rw [List.foldlM_cons] at hfold
    cases hstep : mergeStep ((orig.length : Int) - 2) (cur, td) a with
    | none => rw [hstep] at hfold; simp at hfold
    | some mid =>
      rw [hstep] at hfold
      simp only [Option.bind_eq_bind, Option.some_bind] at hfold
      by_cases hlt : a + 1 < orig.length
      · obtain ⟨cur', heq, hext'⟩ := mergeStep_some hext (hhdr a (by simp)) hlt
        rw [hstep] at heq
        have hmid : mid = (cur', td ++ (if spliceCond orig a then [a + 1] else [])) :=
          Option.some.inj heq
        subst hmid
        have hrec := ih hext' (fun i hi => hhdr i (List.mem_cons_of_mem a hi)) hfold
        rw [hrec]
        by_cases hsp : spliceCond orig a
        · simp [hsp, List.filter_cons, List.append_assoc]
        · simp [hsp, List.filter_cons]
      · have hnone := @mergeStep_none orig cur td ((orig.length : Int) - 2) a hext
          (show orig.length ≤ a + 1 by omega)
        rw [hstep] at hnone
        simp at hnone

theorem mergeLoop_toDel {src : String} {ls : List String} {td : List Nat}
    (hsome : mergeLoop src = some (ls, td)) :
    td = ((headerIdxs (ppLines src)).filter
        (fun i => decide (spliceCond (ppLines src) i))).map (· + 1) := by
  unfold mergeLoop at hsome
  have hhdrs : ∀ i ∈ headerIdxs (ppLines src),
      endsWithChar ':' ((ppLines src).getD i "") = true := by
    intro i hi
    unfold headerIdxs at hi
    exact (List.mem_filter.mp hi).2
  have := foldlM_mergeStep (headerIdxs (ppLines src)) (extOf_refl (ppLines src)) hhdrs hsome
  simpa using this

/-- Claim C4 (amended): in `post_process`, the following line `i + 1` is
spliced onto a colon-terminated header line `i` if and only if the header is
the second-to-last line (in which case the indentation comparison is bypassed
and the splice always happens), or the header's indentation is strictly less
than the following line's indentation and not strictly less than the
indentation of the line after that (a missing line counting as empty).  The
original claim's unconditional "header indentation ≥ following line's
indentation implies no merge" fails in the second-to-last position, see
`C4_counterexample`. -/
theorem C4_splice_iff {src : String} {ls : List String} {td : List Nat} {i : Nat}
    (hsome : mergeLoop src = some (ls, td))
    (hhdr : i ∈ headerIdxs (ppLines src)) :
    (i + 1) ∈ td ↔ spliceCond (ppLines src) i := by
  rw [mergeLoop_toDel hsome]
  rw [List.mem_map]
  constructor
  · rintro ⟨a, ha, haeq⟩
    have : a = i := by omega
    subst this
    have := (List.mem_filter.mp ha).2
    simpa using this
  · intro h
    exact ⟨i, List.mem_filter.mpr ⟨hhdr, by simpa using h⟩, rfl⟩

/-- Claim C4, counterexample to the claim as stated: on the two-line source
`"a:\nb"`, the header's indentation (0) is greater than or equal to the
following line's indentation (0), so the claim mandates that merging be
skipped — but `post_process` splices the lines (the header is second-to-last,
where the code bypasses the comparison), producing `"a:b"` with line 1 in
`to_del`. -/
theorem C4_counterexample :
    postProcess "a:\nb" = some "a:b" ∧
    mergeLoop "a:\nb" = some (["a:b", "b"], [1]) ∧
    getIndent ((ppLines "a:\nb").getD 0 "") ≥ getIndent ((ppLines "a:\nb").getD 1 "") := by
  refine ⟨?_, ?_, ?_⟩ <;> decide

/-- Witness for `C4_splice_iff` at the concrete source `"if x:\n a\nb"`:
header line 0 is followed by a more-indented body line whose successor is
less indented, so the splice fires and `1 ∈ to_del`. -/
theorem C4_splice_iff_witness :
    (mergeLoop "if x:\n a\nb" = some (["if x:a", " a", "b"], [1]) ∧
      0 ∈ headerIdxs (ppLines "if x:\n a\nb")) ∧
    ((0 + 1) ∈ [1] ↔ spliceCond (ppLines "if x:\n a\nb") 0) :=
  ⟨⟨by decide, by decide⟩,
    @C4_splice_iff "if x:\n a\nb" ["if x:a", " a", "b"] [1] 0 (by decide) (by decide)⟩


/-! ## Claim C9: rendering of float constants

`Minimize.visit_Constant` (src/minipy3/__init__.py lines 101-102):

```python
elif isinstance(value, float):
    self.write('0.' if walrus-bound short, set to str(Decimal(str(value))).strip('0'),
        compares equal to '.' else short)
```

The embedding `floatBranch` works on the decimal string
`str(Decimal(str(value)))`.  For a float whose `repr` is in plain positional
form `"<digits>.<digits>"` (every float Python shows without an exponent,
e.g. `str(0.0) = '0.0'`, `str(100.0) = '100.0'`), `Decimal` preserves the
digit string, so that decimal string is `repr(value)` itself.  For a float
whose `repr` is in exponent form (every float of magnitude at least `1e16`,
among others), `Decimal` renders scientific notation with an upper-case `E`
and an explicit sign, e.g. `str(Decimal(str(1e20))) = "1E+20"`; the same
`.strip('0')` then eats the exponent's trailing zeros. -/

/-- The float branch of `visit_Constant`, as a function of the decimal string
`str(Decimal(str(value)))`. -/
def floatBranch (srepr : String) : String :=
  let short := pyStripSet ['0'] srepr
  if short = "." then "0." else short

def digitsVal (l : List Char) : Nat := l.foldl (fun a c => 10 * a + (c.toNat - 48)) 0

def decValCharlist (a b : List Char) : ℚ :=
  (digitsVal a : ℚ) + (digitsVal b : ℚ) / 10 ^ b.length

def decValOf (s : String) : Option ℚ :=
  let l := s.toList
  let a := l.takeWhile (· ≠ '.')
  match l.dropWhile (· ≠ '.') with
  | '.' :: b => if a.all Char.isDigit ∧ b.all Char.isDigit then some (decValCharlist a b) else none
  | _ => none

theorem dropWhile_append_stop {p : Char → Bool} {m : Char} (l₁ l₂ : List Char)
    (h : p m = false) :
    (l₁ ++ m :: l₂).dropWhile p = l₁.dropWhile p ++ m :: l₂ := by
  induction l₁ with
  | nil => simp [List.dropWhile_cons, h]
  | cons c t ih =>
    by_cases hc : p c
    · simpa [List.dropWhile_cons, hc] using ih
    · simp [List.dropWhile_cons, hc]

theorem takeWhile_append_stop {p : Char → Bool} {m : Char} (l₁ l₂ : List Char)
    (h : p m = false) :
    (l₁ ++ m :: l₂).takeWhile p = l₁.takeWhile p := by
  induction l₁ with
  | nil => simp [List.takeWhile_cons, h]
  | cons c t ih =>
    by_cases hc : p c
    · simpa [List.takeWhile_cons, hc] using ih
    · simp [List.takeWhile_cons, hc]

theorem strip0_decimal (a b : List Char) :
    (pyStripSet ['0'] (String.mk (a ++ '.' :: b))).toList =
      a.dropWhile (fun c => ['0'].contains c) ++
        '.' :: ((b.reverse.dropWhile (fun c => ['0'].contains c)).reverse) := by
  unfold pyStripSet pyRstrip pyLstrip
  simp only [String.toList]
  have hdot : (['0'].contains '.') = false := by decide
  have h1 : (a ++ '.' :: b).reverse = b.reverse ++ '.' :: a.reverse := by
    simp [List.reverse_append]
  rw [h1, dropWhile_append_stop _ _ hdot]
  have h2 : (b.reverse.dropWhile (fun c => ['0'].contains c) ++ '.' :: a.reverse).reverse =
      a ++ '.' :: (b.reverse.dropWhile (fun c => ['0'].contains c)).reverse := by
    simp [List.reverse_append]
  rw [h2, dropWhile_append_stop _ _ hdot]

theorem digitsVal_from (acc : Nat) (l : List Char) :
    l.foldl (fun a c => 10 * a + (c.toNat - 48)) acc = acc * 10 ^ l.length + digitsVal l := by
  induction l generalizing acc with
  | nil => simp [digitsVal]
  | cons c t ih =>
    simp only [List.foldl_cons, List.length_cons]
    rw [ih]
    have hc : digitsVal (c :: t) = (c.toNat - 48) * 10 ^ t.length + digitsVal t := by
      show List.foldl _ (10 * 0 + (c.toNat - 48)) t = _
      rw [ih]
      ring
    rw [hc]
    ring

theorem digitsVal_cons (c : Char) (t : List Char) :
    digitsVal (c :: t) = (c.toNat - 48) * 10 ^ t.length + digitsVal t := by
  show List.foldl _ (10 * 0 + (c.toNat - 48)) t = _
  rw [digitsVal_from]
  ring

theorem digitsVal_append (l₁ l₂ : List Char) :
    digitsVal (l₁ ++ l₂) = digitsVal l₁ * 10 ^ l₂.length + digitsVal l₂ := by
  unfold digitsVal
  rw [List.foldl_append]
  exact digitsVal_from _ _

theorem digitsVal_of_all_zero {l : List Char} (h : ∀ c ∈ l, c = '0') :
    digitsVal l = 0 := by
  induction l with
  | nil => rfl
  | cons c t ih =>
    rw [digitsVal_cons, ih (fun x hx => h x (List.mem_cons_of_mem c hx))]
    have hc : c = '0' := h c (List.mem_cons_self c t)
    subst hc
    have h48 : ('0' : Char).toNat - 48 = 0 := by decide
    simp [h48]

theorem digitsVal_dropWhile0 (a : List Char) :
    digitsVal (a.dropWhile (fun c => ['0'].contains c)) = digitsVal a := by
  induction a with
  | nil => rfl
  | cons c t ih =>
    by_cases hc : c = '0'
    · subst hc
      rw [List.dropWhile_cons_of_pos (by decide)]
      rw [ih, digitsVal_cons]
      have h48 : ('0' : Char).toNat - 48 = 0 := by decide
      simp [h48]
    · rw [List.dropWhile_cons_of_neg (by simp [hc])]


theorem dropWhile_head_false {p : Char → Bool} {l : List Char} {c : Char} {t : List Char}
    (h : l.dropWhile p = c :: t) : p c = false := by
  induction l with
  | nil => simp at h
  | cons x xs ih =>
    by_cases hx : p x
    · rw [List.dropWhile_cons_of_pos hx] at h
      exact ih h
    · rw [List.dropWhile_cons_of_neg hx] at h
      cases h
      exact Bool.of_not_eq_true hx

theorem C9_main (a b : List Char)
    (ha : ∀ c ∈ a, c.isDigit) (hb : ∀ c ∈ b, c.isDigit) :
    decValOf (floatBranch (String.mk (a ++ '.' :: b))) = some (decValCharlist a b) ∧
    (floatBranch (String.mk (a ++ '.' :: b)) = "0." ↔
      (∀ c ∈ a, c = '0') ∧ (∀ c ∈ b, c = '0')) := by
  set p : Char → Bool := fun c => ['0'].contains c with hp
  have hp0 : ∀ c, p c = true ↔ c = '0' := by intro c; simp [hp]
  set a' := a.dropWhile p with ha'
  set dt := (b.reverse.dropWhile p).reverse with hdt
  have hS : (pyStripSet ['0'] (String.mk (a ++ '.' :: b))).toList = a' ++ '.' :: dt :=
    strip0_decimal a b
  have hmk : ∀ s : String, String.mk s.toList = s := fun _ => rfl
  have hSeq : pyStripSet ['0'] (String.mk (a ++ '.' :: b)) = String.mk (a' ++ '.' :: dt) := by
    rw [← hmk (pyStripSet ['0'] (String.mk (a ++ '.' :: b))), hS]
  -- the degenerate "." test
  have hdot : (pyStripSet ['0'] (String.mk (a ++ '.' :: b)) = ".") ↔ (a' = [] ∧ dt = []) := by
    rw [hSeq]
    constructor
    · intro h
      have : a' ++ '.' :: dt = ['.'] := by
        have := congrArg String.toList h
        simpa [String.toList] using this
      have hlen := congrArg List.length this
      simp only [List.length_append, List.length_cons, List.length_nil] at hlen
      exact ⟨List.length_eq_zero.mp (by omega), List.length_eq_zero.mp (by omega)⟩
    · rintro ⟨h1, h2⟩
      rw [h1, h2]
      rfl
  -- decomposition of b into dt ++ trailing zeros
  have hbsplit : b = dt ++ (b.reverse.takeWhile p).reverse := by
    rw [hdt]
    have h2 := congrArg List.reverse (@List.takeWhile_append_dropWhile _ p b.reverse)
    simp only [List.reverse_append, List.reverse_reverse] at h2
    exact h2.symm
  have htz : ∀ c ∈ (b.reverse.takeWhile p).reverse, c = '0' := by
    intro c hc
    rw [List.mem_reverse] at hc
    exact (hp0 c).mp (List.mem_takeWhile_imp hc)
  unfold floatBranch
  by_cases hdeg : pyStripSet ['0'] (String.mk (a ++ '.' :: b)) = "."
  · rw [if_pos hdeg]
    obtain ⟨h1, h2⟩ := hdot.mp hdeg
    have haz : ∀ c ∈ a, c = '0' := by
      intro c hc
      have := List.dropWhile_eq_nil_iff.mp h1 c hc
      exact (hp0 c).mp this
    have hbz : ∀ c ∈ b, c = '0' := by
      have hnil : b.reverse.dropWhile p = [] := by
        have h3 : (b.reverse.dropWhile p).reverse = [] := by rw [← hdt]; exact h2
        simpa using congrArg List.reverse h3
      intro c hc
      exact (hp0 c).mp (List.dropWhile_eq_nil_iff.mp hnil c (List.mem_reverse.mpr hc))
    constructor
    · have hv : decValCharlist a b = 0 := by
        unfold decValCharlist
        rw [digitsVal_of_all_zero haz, digitsVal_of_all_zero hbz]
        simp
      rw [hv]
      show decValOf "0." = some 0
      have h1 : decValOf "0." = some (decValCharlist ['0'] []) := rfl
      rw [h1]
      have h2 : digitsVal ['0'] = 0 := rfl
      unfold decValCharlist
      rw [h2]
      have h3 : digitsVal [] = 0 := rfl
      rw [h3]
      norm_num
    · exact ⟨fun _ => ⟨haz, hbz⟩, fun _ => rfl⟩
  · rw [if_neg hdeg]
    have hnotboth : ¬ (a' = [] ∧ dt = []) := fun h => hdeg (hdot.mpr h)
    constructor
    · -- value preservation
      rw [hSeq]
      have hdig_a' : ∀ c ∈ a', c.isDigit := fun c hc =>
        ha c ((List.dropWhile_sublist p).subset hc)
      have hdig_dt : ∀ c ∈ dt, c.isDigit := by
        intro c hc
        rw [hdt, List.mem_reverse] at hc
        exact hb c (List.mem_reverse.mp ((List.dropWhile_sublist p).subset hc))
      have hne_a' : ∀ c ∈ a', (c ≠ '.' : Bool) := by
        intro c hc
        have := hdig_a' c hc
        simp only [ne_eq, decide_eq_true_eq]
        intro hcc
        subst hcc
        simp at this
      show decValOf (String.mk (a' ++ '.' :: dt)) = _
      unfold decValOf
      simp only [String.toList]
      rw [takeWhile_append_stop _ _ (by simp), dropWhile_append_stop _ _ (by simp)]
      rw [List.takeWhile_eq_self_iff.mpr hne_a']
      rw [List.dropWhile_eq_nil_iff.mpr hne_a']
      simp only [List.nil_append]
      rw [if_pos]
      · congr 1
        unfold decValCharlist
        rw [ha', digitsVal_dropWhile0]
        congr 1
        rw [hbsplit, digitsVal_append, digitsVal_of_all_zero htz]
        rw [List.length_append]
        push_cast
        have h10 : ((10 : ℚ)) ^ (b.reverse.takeWhile p).reverse.length ≠ 0 := by positivity
        have h10' : ((10 : ℚ)) ^ dt.length ≠ 0 := by positivity
        field_simp
        ring
      · constructor
        · exact List.all_eq_true.mpr (fun c hc => hdig_a' c hc)
        · exact List.all_eq_true.mpr (fun c hc => hdig_dt c hc)
    · constructor
      · intro hzero
        exfalso
        -- a' ++ '.' :: dt = ['0', '.'] is impossible: a' cannot end-start with '0'
        rw [hSeq] at hzero
        have hlist : a' ++ '.' :: dt = ['0', '.'] := by
          have := congrArg String.toList hzero
          simpa [String.toList] using this
        cases ha'' : a' with
        | nil =>
          rw [ha''] at hlist
          simp at hlist
        | cons x xs =>
          rw [ha''] at hlist
          have hx : x = '0' := by
            have := congrArg (fun l => l.head?) hlist
            simpa using this
          have : p x = false := dropWhile_head_false (ha' ▸ ha'')
          rw [hx] at this
          simp [hp] at this
      · rintro ⟨haz, hbz⟩
        exfalso
        apply hnotboth
        constructor
        · exact List.dropWhile_eq_nil_iff.mpr (fun c hc => (hp0 c).mpr (haz c hc))
        · rw [hdt]
          have : b.reverse.dropWhile p = [] :=
            List.dropWhile_eq_nil_iff.mpr
              (fun c hc => (hp0 c).mpr (hbz c (List.mem_reverse.mp hc)))
          rw [this]
          rfl

/-- Supporting result delimiting the bug of `C9_float_strip_changes_value`:
on a *positional* decimal string `"<digits>.<digits>"` the strip is
value-preserving — `'0'` characters disappear from both ends (trailing zeros
of the fraction and a leading zero of the integer part), an all-zero numeral
is special-cased to `"0."`, and the result denotes the same rational value;
it equals `"0."` exactly when every digit of the input was zero. -/
theorem float_strip_value_positional (a b : List Char)
    (ha : ∀ c ∈ a, c.isDigit) (hb : ∀ c ∈ b, c.isDigit) :
    decValOf (floatBranch (String.mk (a ++ '.' :: b))) = some (decValCharlist a b) ∧
    (floatBranch (String.mk (a ++ '.' :: b)) = "0." ↔
      (∀ c ∈ a, c = '0') ∧ (∀ c ∈ b, c = '0')) :=
  C9_main a b ha hb

/-- `float_strip_value_positional` at the concrete decimal string `"100.50"`. -/
theorem float_strip_value_positional_inst :
    ((∀ c ∈ ['1', '0', '0'], c.isDigit) ∧ (∀ c ∈ ['5', '0'], c.isDigit)) ∧
    (decValOf (floatBranch (String.mk (['1', '0', '0'] ++ '.' :: ['5', '0']))) =
        some (decValCharlist ['1', '0', '0'] ['5', '0']) ∧
      (floatBranch (String.mk (['1', '0', '0'] ++ '.' :: ['5', '0'])) = "0." ↔
        (∀ c ∈ ['1', '0', '0'], c = '0') ∧ (∀ c ∈ ['5', '0'], c = '0'))) :=
  ⟨⟨by decide, by decide⟩, float_strip_value_positional _ _ (by decide) (by decide)⟩

/-- The value denoted by a scientific-notation decimal string
`"<digits>E+<digits>"` — the form `Decimal.__str__` gives the decimal string
of a large float, e.g. `str(Decimal(str(1e20))) = "1E+20"`: the coefficient
digits times ten to the exponent digits. -/
def sciValOf (s : String) : Option Nat :=
  let l := s.toList
  let m := l.takeWhile (fun c => c ≠ 'E')
  match l.dropWhile (fun c => c ≠ 'E') with
  | 'E' :: '+' :: e =>
    if m ≠ [] ∧ e ≠ [] ∧ m.all Char.isDigit ∧ e.all Char.isDigit then
      some (digitsVal m * 10 ^ digitsVal e)
    else none
  | _ => none

/-- Claim C9: `visit_Constant` renders a float by writing
`str(Decimal(str(value))).strip('0')`, substituting `"0."` when the strip
leaves only `"."`.  This is not trailing-zero stripping of the numeral: for
the float `1e20` the decimal string is `"1E+20"` in scientific notation, and
the strip removes the exponent's trailing zero, writing `"1E+2"` — a float
literal of value `100`, not `10 ^ 20`; and `0.0` is written as `"0."`, not
the `"0"` the claim asserts.  So the rendering neither strips only trailing
fractional zeros nor preserves the constant's value. -/
theorem C9_float_strip_changes_value :
    floatBranch "1E+20" = "1E+2" ∧
    sciValOf "1E+20" = some (10 ^ 20) ∧
    sciValOf "1E+2" = some 100 ∧
    (10 ^ 20 : Nat) ≠ 100 ∧
    floatBranch "0.0" = "0." := by
  refine ⟨?_, ?_, ?_, ?_, ?_⟩ <;> decide


/-! ## Claim C10: `AddSemicolon.__init_subclass__` mutates the base class set

From src/minipy3/semicolon.py:

```python
class AddSemicolon(ast._Unparser):
    add_semicolon_after = {'Return', 'Delete', 'Assign', 'AugAssign', 'AnnAssign', 'Raise',
                           'Assert', 'Import', 'ImportFrom', 'Global', 'Nonlocal', 'Expr',
                           'Pass', 'Break', 'Continue'}
    def __init_subclass__(cls, **kwargs):
        ignore = kwargs.get('ignore', {*()})
        cls.add_semicolon_after ^= ignore
    def __init__(self, *args, **kwargs):
        super().__init__(*args, **kwargs)
        for name in self.add_semicolon_after:
            name = f'visit_{name}'
            if hasattr(self, name):
                setattr(self, name, self.and_add(getattr(self, name)))
```

and `class Minimize(AddSemicolon, ignore={'Import'})` in src/minipy3/__init__.py
line 17.  `cls.add_semicolon_after ^= ignore` looks the attribute up (found on
the base class), calls the in-place `set.__ixor__` on that very object, then
binds the subclass attribute to the same object: base and subclass share one
mutated set.  The embedding models the attribute store explicitly: a heap of
set objects, a reference held by the base class and an optional own-attribute
reference for the subclass. -/

/-- The class-level default `add_semicolon_after` set (as a list; Python set
membership is what matters). -/
def addSemicolonAfterInit : List String :=
  ["Return", "Delete", "Assign", "AugAssign", "AnnAssign", "Raise", "Assert", "Import",
   "ImportFrom", "Global", "Nonlocal", "Expr", "Pass", "Break", "Continue"]

/-- Attribute store for the `AddSemicolon` class pair: a heap of set objects,
the base class's reference, and the subclass's own reference if set. -/
structure ClassAttrState where
  heap : List (List String)
  baseRef : Nat
  subRef : Option Nat
deriving DecidableEq

/-- Attribute lookup `cls.add_semicolon_after` on the subclass: its own
attribute if present, else the base class's. -/
def lookupSubAttr (st : ClassAttrState) : Nat := st.subRef.getD st.baseRef

/-- Python `set` symmetric difference on the list-as-set model. -/
def symmDiff (s t : List String) : List String :=
  s.filter (fun x => !(t.contains x)) ++ t.filter (fun x => !(s.contains x))

/-- `__init_subclass__`: `cls.add_semicolon_after ^= ignore` looks the set up
through the subclass, mutates that heap cell in place (`set.__ixor__`), and
binds the subclass attribute to the same reference. -/
def initSubclass (ignore : List String) (st : ClassAttrState) : ClassAttrState :=
  let r := lookupSubAttr st
  let v := st.heap.getD r []
  { heap := st.heap.set r (symmDiff v ignore), baseRef := st.baseRef, subRef := some r }

/-- The attribute store when `minipy3.semicolon` has just been imported: one
set object holding the class-level default, owned by the base class. -/
def semicolonInitState : ClassAttrState :=
  { heap := [addSemicolonAfterInit], baseRef := 0, subRef := none }

/-- The attribute store after src/minipy3/__init__.py line 17 has executed
`class Minimize(AddSemicolon, ignore={'Import'})`. -/
def afterMinimizeDef : ClassAttrState := initSubclass ["Import"] semicolonInitState

/-- The set `AddSemicolon.__init__` (hence the standalone `add_semicolons`
entry point) reads through the *base* class reference. -/
def addSemicolonEffective (st : ClassAttrState) : List String :=
  st.heap.getD st.baseRef []

/-- Python `', '.join(...)`. -/
def joinCommaSp : List String → String
  | [] => ""
  | [x] => x
  | x :: rest => x ++ ", " ++ joinCommaSp rest

/-- Rendering of a plain `import a, b` statement by a fresh `AddSemicolon`
instance (`ast._Unparser.visit_Import` writes `'import '` then the aliases
joined by `', '`), with the `';'` marker appended iff `'Import'` is in the
effective `add_semicolon_after` set when `__init__` wraps the visitors. -/
def addSemicolonsImportRender (st : ClassAttrState) (names : List String) : String :=
  "import " ++ joinCommaSp names ++
    (if (addSemicolonEffective st).contains "Import" then ";" else "")

/-- Claim C10: defining `Minimize(AddSemicolon, ignore={'Import'})` applies
the symmetric difference to the one shared `add_semicolon_after` set object in
place — the subclass attribute ends up bound to the very same reference the
base class holds — so after the package is imported, the base class's
effective set no longer contains `'Import'`, and the standalone
`add_semicolons` entry point renders a plain import without the trailing
`';'` marker (which it did append before `Minimize` was defined). -/
theorem C10_shared_set_mutation :
    addSemicolonEffective afterMinimizeDef =
      addSemicolonAfterInit.filter (fun x => !(x == "Import")) ∧
    afterMinimizeDef.subRef = some afterMinimizeDef.baseRef ∧
    (addSemicolonEffective afterMinimizeDef).contains "Import" = false ∧
    addSemicolonsImportRender afterMinimizeDef ["os", "sys"] = "import os, sys" ∧
    addSemicolonsImportRender semicolonInitState ["os", "sys"] = "import os, sys;" := by
  refine ⟨?_, ?_, ?_, ?_, ?_⟩ <;> decide

/-! ## Claims C6 and C7: `minimize`'s output selection

From src/minipy3/__init__.py lines 456-474:

```python
def minimize(raw_code, compress=True, compress_required=False):
    minimized = Minimize().visit(ast.parse(raw_code)).strip(f'{whitespace};')
    codes = min((raw_code, minimized), key=len)
    encoded = minimized.encode()
    if compress_required:
        codes = f"exec(__import__('lzma').decompress({lzma.compress(encoded, lzma.FORMAT_ALONE)!r}))"
        compress = True
    if compress:
        for mod in (lzma, zlib, gzip, bz2):
            if len((_val := f'exec(__import__({mod.__name__!r}).decompress({mod.compress(encoded)!r}))')) < len(codes):
                codes = _val
        return _val if len(
            (_val := f"exec(__import__('lzma').decompress({lzma.compress(encoded, lzma.FORMAT_ALONE)!r}))")) < len(
            codes) else codes
    return codes
```

The compression codecs are external libraries; each candidate's compressed
payload `repr` is therefore a parameter of the selection model (`pl pz pg pb`
for the loop's lzma/zlib/gzip/bz2 payload reprs, `palone` for the
`lzma.FORMAT_ALONE` payload repr), spliced into the exact stub template of
the source.  Python's `len` on `str` counts code points, as does
`String.length`. -/

/-- The self-decompressing stub template
`f'exec(__import__({mod.__name__!r}).decompress({payload!r}))'`. -/
def stub (modname payload : String) : String :=
  "exec(__import__('" ++ modname ++ "').decompress(" ++ payload ++ "))"

/-- One strict-improvement update `if len(cand) < len(codes): codes = cand`;
also exactly `min((codes, cand), key=len)`, which keeps the first argument on
ties. -/
def shorter (codes cand : String) : String :=
  if cand.length < codes.length then cand else codes

/-- The four stubs generated by `for mod in (lzma, zlib, gzip, bz2)`. -/
def loopStubs (pl pz pg pb : String) : List String :=
  [stub "lzma" pl, stub "zlib" pz, stub "gzip" pg, stub "bz2" pb]

/-- The `if compress:` body: fold the strict-improvement update over the four
loop stubs, then the final `return _val if len(_val) < len(codes) else codes`
with the `FORMAT_ALONE` stub. -/
def compressPhase (codes : String) (pl pz pg pb palone : String) : String :=
  shorter ((loopStubs pl pz pg pb).foldl shorter codes) (stub "lzma" palone)

/-- The selection logic of `minimize` over the already-rendered texts:
`codes = min((raw_code, minimized), key=len)`, replaced by the
`FORMAT_ALONE` stub when `compress_required` (which also forces
`compress = True`), then the compression phase when compression is on. -/
def minimizeSelect (raw minimized pl pz pg pb palone : String)
    (compress compress_required : Bool) : String :=
  if compress || compress_required then
    compressPhase (if compress_required then stub "lzma" palone else shorter raw minimized)
      pl pz pg pb palone
  else shorter raw minimized

/-- Folding the strict-improvement update from an initial candidate: returns
the first minimal element of `x :: l`. -/
def firstMin (x : String) (l : List String) : String := l.foldl shorter x

theorem shorter_le_left (x a : String) : (shorter x a).length ≤ x.length := by
  unfold shorter; split <;> omega

theorem shorter_le_right (x a : String) : (shorter x a).length ≤ a.length := by
  unfold shorter; split <;> omega

theorem firstMin_le {x : String} {l : List String} :
    ∀ c ∈ x :: l, (firstMin x l).length ≤ c.length := by
  induction l generalizing x with
  | nil => intro c hc; simp at hc; subst hc; exact Nat.le_refl _
  | cons a t ih =>
    intro c hc
    have hstep : firstMin x (a :: t) = firstMin (shorter x a) t := rfl
    rw [hstep]
    rcases List.mem_cons.mp hc with rfl | hc
    · exact le_trans (ih _ (List.mem_cons_self _ _)) (shorter_le_left c a)
    · rcases List.mem_cons.mp hc with rfl | hc
      · exact le_trans (ih _ (List.mem_cons_self _ _)) (shorter_le_right x c)
      · exact ih c (List.mem_cons_of_mem _ hc)

theorem firstMin_first {x : String} {l : List String} :
    ∃ pre suf, x :: l = pre ++ firstMin x l :: suf ∧
      ∀ c ∈ pre, (firstMin x l).length < c.length := by
  induction l generalizing x with
  | nil => exact ⟨[], [], rfl, by simp⟩
  | cons a t ih =>
    have hstep : firstMin x (a :: t) = firstMin (shorter x a) t := rfl
    by_cases hlt : a.length < x.length
    · have hsh : shorter x a = a := by unfold shorter; rw [if_pos hlt]
      obtain ⟨pre, suf, hdec, hmin⟩ := @ih a
      rw [hsh] at hstep
      refine ⟨x :: pre, suf, ?_, ?_⟩
      · rw [hstep, List.cons_append, ← hdec]
      · intro c hc
        rcases List.mem_cons.mp hc with rfl | hc
        · rw [hstep]
          calc (firstMin a t).length ≤ a.length := firstMin_le _ (List.mem_cons_self _ _)
            _ < c.length := hlt
        · rw [hstep]; exact hmin c hc
    · have hsh : shorter x a = x := by unfold shorter; rw [if_neg hlt]
      obtain ⟨pre, suf, hdec, hmin⟩ := @ih x
      rw [hsh] at hstep
      rw [hstep]
      cases pre with
      | nil =>
        simp only [List.nil_append] at hdec
        refine ⟨[], a :: t, ?_, by simp⟩
        have hx : x = firstMin x t := by
          have := congrArg (fun l => l.head?) hdec
          simpa using this
        rw [← hx]
        simp
      | cons p ps =>
        have hp : p = x := by
          have := congrArg (fun l => l.head?) hdec
          simpa using this.symm
        subst hp
        have htail : t = ps ++ firstMin p t :: suf := by
          have := congrArg List.tail hdec
          simpa using this
        refine ⟨p :: a :: ps, suf, ?_, ?_⟩
        · rw [List.cons_append, List.cons_append, ← htail]
        · intro c hc
          rcases List.mem_cons.mp hc with rfl | hc
          · exact hmin c (List.mem_cons_self _ _)
          · rcases List.mem_cons.mp hc with rfl | hc
            · have h1 : (firstMin p t).length < p.length :=
                hmin p (List.mem_cons_self _ _)
              omega
            · exact hmin c (List.mem_cons_of_mem _ hc)

theorem firstMin_mem {x : String} {l : List String} : firstMin x l ∈ x :: l := by
  obtain ⟨pre, suf, hdec, _⟩ := @firstMin_first x l
  rw [hdec]
  simp

/-- With compression on and not forced, the selection is the first-minimal
fold over the seven candidates in generation order. -/
theorem select_eq_firstMin (raw minimized pl pz pg pb palone : String) :
    minimizeSelect raw minimized pl pz pg pb palone true false =
      firstMin raw [minimized, stub "lzma" pl, stub "zlib" pz, stub "gzip" pg,
        stub "bz2" pb, stub "lzma" palone] := by
  unfold minimizeSelect compressPhase loopStubs firstMin
  rw [if_pos (show (true || false) = true by decide),
    if_neg (show ¬ (false = true) by decide)]
  simp only [List.foldl_cons, List.foldl_nil]

/-- Under forced compression the selection is the first-minimal fold over the
five stub candidates, starting from the `FORMAT_ALONE` stub. -/
theorem select_forced_eq_firstMin (raw minimized pl pz pg pb palone : String) (c : Bool) :
    minimizeSelect raw minimized pl pz pg pb palone c true =
      firstMin (stub "lzma" palone) [stub "lzma" pl, stub "zlib" pz, stub "gzip" pg,
        stub "bz2" pb, stub "lzma" palone] := by
  unfold minimizeSelect compressPhase loopStubs firstMin
  rw [if_pos (show (c || true) = true by simp), if_pos rfl]
  simp only [List.foldl_cons, List.foldl_nil]

/-- Claim C6: with compression enabled and not forced, the output of
`minimize`'s selection is no longer than every individual candidate it
considers — the raw source, the minimized text, the four loop codec stubs and
the `FORMAT_ALONE` stub — and ties are broken by candidate-generation order:
the result occurs in the candidate list with every earlier candidate strictly
longer. -/
theorem C6_output_shortest (raw minimized pl pz pg pb palone : String) :
    (∀ c ∈ raw :: [minimized, stub "lzma" pl, stub "zlib" pz, stub "gzip" pg,
        stub "bz2" pb, stub "lzma" palone],
      (minimizeSelect raw minimized pl pz pg pb palone true false).length ≤ c.length) ∧
    ∃ pre suf,
      raw :: [minimized, stub "lzma" pl, stub "zlib" pz, stub "gzip" pg,
        stub "bz2" pb, stub "lzma" palone] =
        pre ++ minimizeSelect raw minimized pl pz pg pb palone true false :: suf ∧
      ∀ c ∈ pre,
        (minimizeSelect raw minimized pl pz pg pb palone true false).length < c.length := by
  rw [select_eq_firstMin]
  exact ⟨firstMin_le, firstMin_first⟩

/-- Claim C7 (amended): under forced compression the raw/minimized candidates
are replaced by the lzma `FORMAT_ALONE` stub, but the stub size comparison
still runs: the result is the first minimal among the five codec stubs (it
need not be the designated lzma stub, see `C7_counterexample`), and it is
always one of the codec stubs — never the plaintext form. -/
theorem C7_forced_is_stub (raw minimized pl pz pg pb palone : String) (c : Bool) :
    minimizeSelect raw minimized pl pz pg pb palone c true ∈
      stub "lzma" palone :: [stub "lzma" pl, stub "zlib" pz, stub "gzip" pg,
        stub "bz2" pb, stub "lzma" palone] ∧
    ∀ cand ∈ stub "lzma" palone :: [stub "lzma" pl, stub "zlib" pz, stub "gzip" pg,
        stub "bz2" pb, stub "lzma" palone],
      (minimizeSelect raw minimized pl pz pg pb palone c true).length ≤ cand.length := by
  rw [select_forced_eq_firstMin]
  exact ⟨firstMin_mem, firstMin_le⟩

/-- Claim C7, counterexample to the claim as stated: forced compression does
*not* skip the size comparison with the other codec stubs.  With a long
`FORMAT_ALONE` payload and an empty zlib payload, the forced-mode result is
the zlib stub, not the designated lzma codec's stub. -/
theorem C7_counterexample :
    minimizeSelect "r" "m" "AAAAAAAAAAAAAAAAAAAA" "" "CCCCCCCCCCCCCCCCCCCC"
        "DDDDDDDDDDDDDDDDDDDD" "PPPPPPPPPP" true true = stub "zlib" "" ∧
    stub "zlib" "" ≠ stub "lzma" "PPPPPPPPPP" ∧
    stub "zlib" "" ≠ stub "lzma" "AAAAAAAAAAAAAAAAAAAA" := by
  refine ⟨?_, ?_, ?_⟩ <;> decide


/-! ## The statement-level printer (claims C1, C5, C8)

Shallow embedding of `Minimize`'s traversal for the statement forms the
claims exercise: plain imports, assignments (`Name = int`), `return`
(optionally of `...`), and `if` with a plain body.  The mutable unparser
state becomes `PState`; `self.write(...)` appends a fragment to `_source`.

Translated methods:
* `Minimize.traverse` (src lines 54-65): the import-aggregation flush that
  runs before visiting any non-list node whose class is not `Import` while
  the buffer's last entry is a real name;
* `Minimize.visit` (lines 67-70): fresh `_source`, traverse, post-process;
* `Minimize.visit_Import` (lines 134-135): `self.import_names.extend(node.names)`;
* `Minimize.import_names` (line 132): a *class-level* list — its value
  survives from one render pass to the next, so `visitModule` takes the
  buffer contents left behind by the previous pass as an argument;
* `Minimize.fill` (lines 33-39) with `Minimize.blocks` (lines 21-24) and
  `_indent_mem` (line 20; assigned through `self._indent_mem = ...`, which
  creates a per-instance attribute, hence plain per-pass state);
* `Minimize.visit_Assign` (lines 145-154; `type_comment` absent),
  `Minimize.visit_Return` (lines 176-182; the value in our fragment is never
  a `UnaryOp`, so the space test reduces to "not the `...` constant");
* the integer branch of `Minimize.visit_Constant` (lines 103-111): the
  `math.log10/log2`-integrality tests are modelled by exact-power tests,
  which agree with the float computation for all inputs in these claims
  (claim C3 exhibits the divergence at 2^53 + 1), and the emitted
  `BinOp(Num(b), Pow(), Num(k))` sub-traversal prints as `b**k` (no parens
  at the default required precedence; see the C2 section);
* from the base class `ast._Unparser`: `write`, `maybe_newline`, `block`
  (write `':'`, increment the indent, decrement at exit), `visit_If` (no `orelse` in our fragment),
  `visit_Name`, `visit_alias` (no `asname`), `visit_Module` via
  `_write_docstring_and_traverse_body` with no docstring;
* from `AddSemicolon.__init__` with `Minimize`'s `ignore={'Import'}`: the
  `';'`-appending wrapper is active for `Assign` and `Return`, not for
  `Import` (removed by the symmetric difference, claim C10) nor `If` (never
  in the set).  The wrapper is inlined into each match arm of `traverseStm`.
-/

/-- Expressions appearing in the statements of claims C1/C5/C8.  `boolConst`
is a `Constant` whose value is a `bool` (an `int` in Python, rendered by
`repr` in the final branch of `visit_Constant`). -/
inductive SExpr where
  | name (s : String)
  | intConst (n : Nat)
  | boolConst (b : Bool)
  | ellipsisConst
deriving DecidableEq

/-- Statement fragment: plain imports, assignment, return, `if`. -/
inductive Stm where
  | imp (names : List String)
  | assign (target : SExpr) (value : SExpr)
  | ret (value : Option SExpr)
  | ifStm (test : SExpr) (body : List Stm)

/-- The printer state: `_source` fragment list, `_indent`, `_indent_mem`,
and the `import_names` aggregation buffer (`None` sentinels included). -/
structure PState where
  source : List String
  indent : Nat
  indentMem : Nat
  importNames : List (Option String)
deriving DecidableEq

/-- `_Unparser.write`: append a fragment. -/
def write (st : PState) (t : String) : PState := { st with source := st.source ++ [t] }

/-- `_Unparser.maybe_newline`: newline unless `_source` is empty. -/
def maybeNewline (st : PState) : PState :=
  if st.source ≠ [] then write st "\n" else st

/-- `Minimize.blocks` (src lines 21-24). -/
def blocks : List String :=
  ["try", "else", "finally", "except", "except*", "class", "def", "@", "if", "elif", "while",
   "with", "match", "for", "async"]

/-- `text.strip().split()[0]` for non-empty stripped text. -/
def firstWord (text : String) : String :=
  String.mk ((pyStrip text).toList.takeWhile (fun c => !(pyWhitespace.contains c)))

/-- `Minimize.fill` (src lines 33-39): start a new physical line (newline,
remember the indent, write the indent as spaces) iff the text begins with a
block keyword, the nesting depth changed, or the previous fragment is `':'`;
then write the text. -/
def fill (st : PState) (text : String) : PState :=
  if (text ≠ "" ∧ blocks.contains (firstWord text)) ∨ st.indent ≠ st.indentMem ∨
      (st.source ≠ [] ∧ st.source.getLast? = some ":") then
    let st := maybeNewline st
    let st := { st with indentMem := st.indent }
    let st := write st (String.mk (List.replicate st.indent ' '))
    write st text
  else write st text

/-- Fuel-driven integer logarithm (structural, so it reduces in the kernel). -/
def natLogFuel : Nat → Nat → Nat → Nat
  | 0, _, _ => 0
  | f + 1, b, n => if 2 ≤ b ∧ b ≤ n then natLogFuel f b (n / b) + 1 else 0

/-- Model of `not math.log(value, b) % 1` for the exact regime: holds iff `n`
is an exact power of `b`.  (For `n` beyond 2^53 the float computation also
accepts near-powers; claim C3 treats that divergence.) -/
def pyLogIsInt (b n : Nat) : Bool := b ^ (natLogFuel n b n) == n

/-- The integer branch of `Minimize.visit_Constant` (src lines 103-111);
the `BinOp(Num(b), Pow(), Num(k))` sub-traversal prints as `b**k`. -/
def intRender (n : Nat) : String :=
  if 10 ^ 5 ≤ n ∧ pyLogIsInt 10 n then "10**" ++ Nat.repr (natLogFuel n 10 n)
  else if 2 ^ 17 ≤ n ∧ pyLogIsInt 2 n then "2**" ++ Nat.repr (natLogFuel n 2 n)
  else Nat.repr n

/-- `self.import_names and self.import_names[-1] is not None`. -/
def lastIsRealName (l : List (Option String)) : Bool :=
  match l.getLast? with
  | some (some _) => true
  | _ => false

/-- The flush body of `Minimize.traverse` (src lines 60-64): append the
`None` sentinel, `fill('import ')`, interleave the non-`None` names with
commas (each name through `traverse`/`visit_alias`; the re-entrant flush
check is a no-op because the buffer now ends in `None`), write `';'`, clear
the buffer. -/
def flushImports (st : PState) : PState :=
  let st := { st with importNames := st.importNames ++ [none] }
  let st := fill st "import "
  let names := st.importNames.filterMap id
  let st :=
    match names with
    | [] => st
    | x :: rest => rest.foldl (fun st n => write (write st ",") n) (write st x)
  let st := write st ";"
  { st with importNames := [] }

/-- The flush guard of `Minimize.traverse` (src line 59), run before every
non-list node: flush when the buffer ends in a real name and the node's
class is not `Import`. -/
def flushPre (st : PState) (isImp : Bool) : PState :=
  if lastIsRealName st.importNames ∧ ¬ isImp then flushImports st else st

/-- `traverse` on an expression node (class never `Import`), then the
`visit_Constant` / `visit_Name` dispatch. -/
def traverseSExpr (st : PState) (e : SExpr) : PState :=
  let st := flushPre st false
  match e with
  | .name s => write st s
  | .intConst n => write st (intRender n)
  | .boolConst b => write st (if b then "True" else "False")
  | .ellipsisConst => write st "..."

def stmIsImport : Stm → Bool
  | .imp _ => true
  | _ => false

mutual

/-- `traverse` on a statement node: the flush guard, the per-kind visitor,
with the `AddSemicolon.and_add` wrapper (`';'` after `Assign`/`Return`)
inlined into each arm. -/
def traverseStm (st : PState) (s : Stm) : PState :=
  let st := flushPre st (stmIsImport s)
  match s with
  | .imp names => { st with importNames := st.importNames ++ names.map some }
  | .assign t v =>
    let st := fill st ""
    let st := traverseSExpr st t
    let st := write st "="
    let st := traverseSExpr st v
    write st ";"
  | .ret v =>
    let st := fill st "return"
    let st :=
      match v with
      | none => st
      | some e =>
        let st := if e = .ellipsisConst then st else write st " "
        traverseSExpr st e
    write st ";"
  | .ifStm test body =>
    let st := fill st "if "
    let st := traverseSExpr st test
    let st := write st ":"
    let st := { st with indent := st.indent + 1 }
    let st := traverseStmList st body
    { st with indent := st.indent - 1 }
termination_by structural s

/-- `traverse` on a list of nodes (src lines 55-57). -/
def traverseStmList (st : PState) : (l : List Stm) → PState
  | [] => st
  | s :: rest => traverseStmList (traverseStm st s) rest
termination_by structural l => l

end

/-- `Minimize.visit` up to (but not including) `post_process`: fresh
`_source`/indent state, the class-level `import_names` buffer carried over
from the previous pass as `initialNames`, then `traverse(Module)` (the
`Module` node itself passes the flush guard first) and the body traversal
(no docstring, no type ignores). -/
def visitModule (initialNames : List (Option String)) (body : List Stm) : PState :=
  let st : PState := { source := [], indent := 0, indentMem := 0, importNames := initialNames }
  let st := flushPre st false
  traverseStmList st body

/-- `''.join(self._source)`. -/
def joinFrags (l : List String) : String := l.foldl (· ++ ·) ""

/-- Claim C1: the code has no end-of-traversal flush.  A module consisting of
the single statement `import os` renders to an *empty* `_source` — the name
`os` is left in the aggregation buffer and appears nowhere in the output —
whereas the same import followed by a statement is flushed into
`import os;`.  `failing_input`: the one-statement module `import os`. -/
theorem C1_trailing_import_dropped :
    (visitModule [] [.imp ["os"]]).source = [] ∧
    (visitModule [] [.imp ["os"]]).importNames = [some "os"] ∧
    joinFrags (visitModule [] [.imp ["os"], .assign (.name "x") (.intConst 1)]).source
      = "import os;x=1;" := by
  refine ⟨?_, ?_, ?_⟩ <;> decide

/-- Claim C5, counterexample to the claim as stated: `import_names` is a
class-level list, so a pass that ends with unflushed imports changes the
output of the *next* pass.  Rendering `import os` and then rendering `x = 1`
yields `import os;x=1;` for the second pass, while a fresh pass over `x = 1`
yields `x=1;`. -/
theorem C5_counterexample :
    joinFrags (visitModule (visitModule [] [.imp ["os"]]).importNames
        [.assign (.name "x") (.intConst 1)]).source = "import os;x=1;" ∧
    joinFrags (visitModule [] [.assign (.name "x") (.intConst 1)]).source = "x=1;" ∧
    ("import os;x=1;" : String) ≠ "x=1;" := by
  refine ⟨?_, ?_, ?_⟩ <;> decide

/-- Claim C5 (amended): the Import Aggregation Buffer is a single class-level
list shared by all render passes, cleared by every flush; a render pass's
output is unaffected by a previous pass exactly when the previous pass left
the buffer empty (i.e. did not end with unflushed imports) — the leak in
`C5_counterexample` is the only coupling. -/
theorem C5_buffer_shared :
    (∀ st : PState, (flushImports st).importNames = []) ∧
    (∀ (body₁ body₂ : List Stm),
      (visitModule [] body₁).importNames = [] →
        visitModule (visitModule [] body₁).importNames body₂ = visitModule [] body₂) := by
  constructor
  · intro st; rfl
  · intro body₁ body₂ h
    rw [h]

/-- Witness for `C5_buffer_shared`: a pass over `x = 1` leaves the buffer
empty, and a following pass over `import os` is then identical to a fresh
one. -/
theorem C5_buffer_shared_witness :
    (visitModule [] [Stm.assign (SExpr.name "x") (SExpr.intConst 1)]).importNames = [] ∧
    visitModule (visitModule [] [Stm.assign (SExpr.name "x") (SExpr.intConst 1)]).importNames
        [Stm.imp ["os"]] = visitModule [] [Stm.imp ["os"]] :=
  ⟨by decide, C5_buffer_shared.2 _ _ (by decide)⟩

/-! ## Claim C8: the two end-to-end examples -/

/-- `minimize(raw_code)` with default flags, over the parser collaborator's
tree `body` for `raw_code`: render, post-process, strip
`f'{whitespace};'`, then select among raw, minimized and the codec stubs
(payload reprs abstract, as in C6/C7). -/
def minimizeModel (raw : String) (body : List Stm) (pl pz pg pb palone : String) :
    Option String :=
  (postProcess (joinFrags (visitModule [] body).source)).map (fun pp =>
    minimizeSelect raw (pyStripSet (pyWhitespace ++ [';']) pp) pl pz pg pb palone true false)

/-- The parser collaborator's tree for `"if True:\n    x = 1\n    y = 2\n"`. -/
def example1Ast : List Stm :=
  [.ifStm (.boolConst true) [.assign (.name "x") (.intConst 1), .assign (.name "y") (.intConst 2)]]

/-- The parser collaborator's tree for `"if True:\n    return ...\n"`. -/
def example2Ast : List Stm := [.ifStm (.boolConst true) [.ret (some .ellipsisConst)]]

/-- Claim C8: `minimize('if True:\n    x = 1\n    y = 2\n')` returns exactly
`if True:x=1;y=2`, and `minimize('if True:\n    return ...\n')` returns
exactly `if True:return...`, for every value of the compressed payloads (the
stub template alone is already longer than either minimized text). -/
theorem C8_end_to_end (pl pz pg pb palone : String) :
    minimizeModel "if True:\n    x = 1\n    y = 2\n" example1Ast pl pz pg pb palone =
      some "if True:x=1;y=2" ∧
    minimizeModel "if True:\n    return ...\n" example2Ast pl pz pg pb palone =
      some "if True:return..." := by
  constructor
  · unfold minimizeModel
    rw [show postProcess (joinFrags (visitModule [] example1Ast).source) =
      some "if True:x=1;y=2" by decide]
    rfl
  · unfold minimizeModel
    rw [show postProcess (joinFrags (visitModule [] example2Ast).source) =
      some "if True:return..." by decide]
    rfl


/-! ## Claim C3: the integer power rewrites and the float logarithm test

`Minimize.visit_Constant` (src lines 103-111):

```python
elif isinstance(value, int):
    if value >= 10**5 and (not math.log10(value) % 1):
        power_10 = int(math.log10(value))
        self.traverse(ast.BinOp(ast.Num(10), ast.Pow(), ast.Num(power_10)))
    elif value >= 2**17 and (not math.log2(value) % 1):
        power_2 = int(math.log2(value))
        self.traverse(ast.BinOp(ast.Num(2), ast.Pow(), ast.Num(power_2)))
    else:
        self.write(repr(value))
```

`math.log2(value)` first converts the Python `int` to a binary64 float —
round to nearest, ties to even, on a 53-bit significand — and then applies
the C library's `log2`, which is exact on exact powers of two.  The
conversion is modelled exactly over `ℕ` by `floatRoundNat`; the logarithm
itself is modelled only on the exact-power case (`log2FloatOnPow2`), which
is all the failing input needs: at `n = 2^53 + 1` the *conversion* already
collapses `n` to the exact power `2^53`, the integrality test
`not math.log2(value) % 1` therefore passes, and the code emits
`2**53 = 9007199254740992 ≠ 9007199254740993 = n` — an inexact rewrite,
where the claim requires the rewrite to fire only when exact and every other
integer to be emitted verbatim. -/

/-- Floor of the base-2 logarithm (structural, kernel-reducible; exact for
`n < 2^1100`, far beyond the float range). -/
def natLog2Floor (n : Nat) : Nat := natLogFuel 1100 2 n

/-- Conversion of a natural number to binary64 (`float(value)` inside
`math.log2(value)`): round to nearest on 53 significand bits, ties to
even.  Exact below `2^53`. -/
def floatRoundNat (n : Nat) : Nat :=
  if n < 2 ^ 53 then n
  else
    let e := natLog2Floor n - 52
    let q := n / 2 ^ e
    let r := n % 2 ^ e
    if 2 ^ (e - 1) < r ∨ (r = 2 ^ (e - 1) ∧ q % 2 = 1) then (q + 1) * 2 ^ e else q * 2 ^ e

/-- `int(math.log2(value))` together with the test
`not math.log2(value) % 1`, modelled on the inputs whose converted double is
an exact power of two (there IEEE `log2` returns exactly the exponent):
`some k` means the test passes with `int(math.log2(value)) = k`. -/
def log2FloatOnPow2 (n : Nat) : Option Nat :=
  if pyLogIsInt 2 (floatRoundNat n) then some (natLog2Floor (floatRoundNat n)) else none

/-- Claim C3: the code's power-of-two test is computed on the *float image*
of the integer.  At `n = 2^53 + 1` (which is `≥ 2^17` and not a power of 2
or 10) the double conversion rounds to exactly `2^53`, so the code's
integrality test passes with exponent 53 and the constant is rewritten to
`2**53`, whose value differs from `n` — while the exact test of the claim
(`intRender`, the faithful model for the exact regime) emits the literal
verbatim.  The rewrite is therefore not restricted to exact cases. -/
theorem C3_power_rewrite_inexact :
    2 ^ 17 ≤ 2 ^ 53 + 1 ∧
    floatRoundNat (2 ^ 53 + 1) = 2 ^ 53 ∧
    log2FloatOnPow2 (2 ^ 53 + 1) = some 53 ∧
    intRender (2 ^ 53 + 1) = Nat.repr (2 ^ 53 + 1) ∧
    2 ^ 53 ≠ 2 ^ 53 + 1 := by
  refine ⟨?_, ?_, ?_, ?_, ?_⟩ <;> decide

end Minipy3
namespace Minipy3

def pnext (p : Nat) : Nat := if p < 18 then p + 1 else p

inductive Bop where
  | add | sub | mult | matmult | div | mod | lshift | rshift
  | bitor | bitxor | bitand | floordiv | pow
deriving DecidableEq

def bopStr : Bop → String
  | .add => "+" | .sub => "-" | .mult => "*" | .matmult => "@" | .div => "/" | .mod => "%"
  | .lshift => "<<" | .rshift => ">>" | .bitor => "|" | .bitxor => "^" | .bitand => "&"
  | .floordiv => "//" | .pow => "**"

def bopPrec : Bop → Nat
  | .add => 13 | .sub => 13 | .mult => 14 | .matmult => 14 | .div => 14 | .mod => 14
  | .lshift => 12 | .rshift => 12 | .bitor => 9 | .bitxor => 10 | .bitand => 11
  | .floordiv => 14 | .pow => 16

def bopRassoc : Bop → Bool
  | .pow => true
  | _ => false

inductive Uop where
  | invert | notOp | uadd | usub
deriving DecidableEq

def uopStr : Uop → String
  | .invert => "~" | .notOp => "not" | .uadd => "+" | .usub => "-"

def uopPrec : Uop → Nat
  | .invert => 15 | .notOp => 7 | .uadd => 15 | .usub => 15

inductive Cop where
  | eq | ne | lt | le | gt | ge | isOp | isNot | inOp | notIn
deriving DecidableEq

def copStr : Cop → String
  | .eq => "==" | .isOp => " is " | .ne => "!=" | .inOp => " in " | .lt => "<"
  | .le => "<=" | .isNot => " is not " | .gt => ">" | .ge => ">=" | .notIn => " not in "

mutual

inductive PExpr where
  | name (s : String)
  | unary (u : Uop) (x : PExpr)
  | bin (op : Bop) (l r : PExpr)
  | cmp (l : PExpr) (c : Cop) (r : PExpr) (rest : Chain)

inductive Chain where
  | nil
  | cons (c : Cop) (e : PExpr) (rest : Chain)

end

deriving instance DecidableEq for PExpr

def precOf : PExpr → Nat
  | .name _ => 18
  | .unary u _ => uopPrec u
  | .bin op _ _ => bopPrec op
  | .cmp _ _ _ _ => 8

inductive Tok where
  | name (s : String)
  | op (s : String)
  | lpar
  | rpar
deriving DecidableEq

def wrapIf (b : Bool) (ts : List Tok) : List Tok :=
  if b then .lpar :: ts ++ [.rpar] else ts

mutual

def renderCore : PExpr → List Tok
  | .name s => [.name s]
  | .unary u x =>
    .op (uopStr u) :: wrapIf (decide (precOf x < uopPrec u)) (renderCore x)
  | .bin op l r =>
    wrapIf (decide (precOf l < (if bopRassoc op then pnext (bopPrec op) else bopPrec op)))
        (renderCore l) ++
      .op (bopStr op) ::
      wrapIf (decide (precOf r < (if bopRassoc op then bopPrec op else pnext (bopPrec op))))
        (renderCore r)
  | .cmp l c r rest =>
    wrapIf (decide (precOf l < 9)) (renderCore l) ++
      .op (copStr c) :: wrapIf (decide (precOf r < 9)) (renderCore r) ++ renderChain rest

def renderChain : Chain → List Tok
  | .nil => []
  | .cons c e rest => .op (copStr c) :: wrapIf (decide (precOf e < 9)) (renderCore e) ++ renderChain rest

end

def render (q : Nat) (e : PExpr) : List Tok :=
  wrapIf (decide (precOf e < q)) (renderCore e)

def bopOfStr (s : String) : Option Bop :=
  if s = "+" then some .add else if s = "-" then some .sub
  else if s = "*" then some .mult else if s = "@" then some .matmult
  else if s = "/" then some .div else if s = "%" then some .mod
  else if s = "<<" then some .lshift else if s = ">>" then some .rshift
  else if s = "|" then some .bitor else if s = "^" then some .bitxor
  else if s = "&" then some .bitand else if s = "//" then some .floordiv
  else if s = "**" then some .pow else none

def symUopOfStr (s : String) : Option Uop :=
  if s = "~" then some .invert else if s = "+" then some .uadd
  else if s = "-" then some .usub else none

def copOfStr (s : String) : Option Cop :=
  if s = "==" then some .eq else if s = "!=" then some .ne
  else if s = "<" then some .lt else if s = "<=" then some .le
  else if s = ">" then some .gt else if s = ">=" then some .ge
  else if s = " is " then some .isOp else if s = " is not " then some .isNot
  else if s = " in " then some .inOp else if s = " not in " then some .notIn
  else none

mutual

def parseL : Nat → Nat → List Tok → Option (PExpr × List Tok)
  | 0, _, _ => none
  | f + 1, q, ts =>
    if q = 18 then
      match ts with
      | .name s :: ts' => some (.name s, ts')
      | .lpar :: ts' =>
        match parseL f 1 ts' with
        | some (e, .rpar :: ts'') => some (e, ts'')
        | _ => none
      | _ => none
    else if q = 17 then parseL f 18 ts
    else if q = 16 then
      match parseL f 17 ts with
      | some (a, ts') =>
        match ts' with
        | .op s :: ts'' =>
          if s = "**" then
            match parseL f 15 ts'' with
            | some (b, ts''') => some (.bin .pow a b, ts''')
            | none => none
          else some (a, ts')
        | _ => some (a, ts')
      | none => none
    else if q = 15 then
      match ts with
      | .op s :: ts' =>
        match symUopOfStr s with
        | some u =>
          match parseL f 15 ts' with
          | some (x, ts'') => some (.unary u x, ts'')
          | none => none
        | none => parseL f 16 ts
      | _ => parseL f 16 ts
    else if 9 ≤ q ∧ q ≤ 14 then
      match parseL f (q + 1) ts with
      | some (a, ts') => foldL f q a ts'
      | none => none
    else if q = 8 then
      match parseL f 9 ts with
      | some (a, ts') => chainL f a ts'
      | none => none
    else if q = 7 then
      match ts with
      | .op s :: ts' =>
        if s = "not" then
          match parseL f 7 ts' with
          | some (x, ts'') => some (.unary .notOp x, ts'')
          | none => none
        else parseL f 8 ts
      | _ => parseL f 8 ts
    else if 1 ≤ q ∧ q ≤ 6 then parseL f (q + 1) ts
    else none

def foldL : Nat → Nat → PExpr → List Tok → Option (PExpr × List Tok)
  | 0, _, _, _ => none
  | f + 1, q, a, ts =>
    match ts with
    | .op s :: ts' =>
      match bopOfStr s with
      | some op =>
        if bopPrec op = q then
          match parseL f (q + 1) ts' with
          | some (b, ts'') => foldL f q (.bin op a b) ts''
          | none => none
        else some (a, ts)
      | none => some (a, ts)
    | _ => some (a, ts)

def chainL : Nat → PExpr → List Tok → Option (PExpr × List Tok)
  | 0, _, _ => none
  | f + 1, a, ts =>
    match ts with
    | .op s :: ts' =>
      match copOfStr s with
      | some c =>
        match parseL f 9 ts' with
        | some (b, ts'') =>
          match chainMore f ts'' with
          | some (rest, ts''') => some (.cmp a c b rest, ts''')
          | none => none
        | none => none
      | none => some (a, ts)
    | _ => some (a, ts)

def chainMore : Nat → List Tok → Option (Chain × List Tok)
  | 0, _ => none
  | f + 1, ts =>
    match ts with
    | .op s :: ts' =>
      match copOfStr s with
      | some c =>
        match parseL f 9 ts' with
        | some (b, ts'') =>
          match chainMore f ts'' with
          | some (rest, ts''') => some (.cons c b rest, ts''')
          | none => none
        | none => none
      | none => some (.nil, ts)
    | _ => some (.nil, ts)

end

def infixPrecOf (s : String) : Option Nat :=
  match bopOfStr s with
  | some op => some (bopPrec op)
  | none =>
    match copOfStr s with
    | some _ => some 8
    | none => none

def stopsB (q : Nat) (ts : List Tok) : Bool :=
  match ts with
  | .op s :: _ =>
    match infixPrecOf s with
    | some p => decide (p < q)
    | none => true
  | _ => true

def ParsesTo (q : Nat) (ts : List Tok) (e : PExpr) (rest : List Tok) : Prop :=
  ∃ f, parseL f q ts = some (e, rest)

end Minipy3
namespace Minipy3

theorem parseL_18 (f : Nat) (ts : List Tok) :
    parseL (f + 1) 18 ts =
      match ts with
      | .name s :: ts' => some (.name s, ts')
      | .lpar :: ts' =>
        (match parseL f 1 ts' with
         | some (e, .rpar :: ts'') => some (e, ts'')
         | _ => none)
      | _ => none := by
  simp [parseL]

theorem parseL_17 (f : Nat) (ts : List Tok) : parseL (f + 1) 17 ts = parseL f 18 ts := by
  simp [parseL]

theorem parseL_16 (f : Nat) (ts : List Tok) :
    parseL (f + 1) 16 ts =
      match parseL f 17 ts with
      | some (a, ts') =>
        (match ts' with
         | .op s :: ts'' =>
           if s = "**" then
             match parseL f 15 ts'' with
             | some (b, ts''') => some (.bin .pow a b, ts''')
             | none => none
           else some (a, ts')
         | _ => some (a, ts'))
      | none => none := by
  simp [parseL]

theorem parseL_15 (f : Nat) (ts : List Tok) :
    parseL (f + 1) 15 ts =
      match ts with
      | .op s :: ts' =>
        (match symUopOfStr s with
         | some u =>
           (match parseL f 15 ts' with
            | some (x, ts'') => some (.unary u x, ts'')
            | none => none)
         | none => parseL f 16 ts)
      | _ => parseL f 16 ts := by
  simp [parseL]

theorem parseL_fold (f q : Nat) (ts : List Tok) (h9 : 9 ≤ q) (h14 : q ≤ 14) :
    parseL (f + 1) q ts =
      match parseL f (q + 1) ts with
      | some (a, ts') => foldL f q a ts'
      | none => none := by
  have e18 : ¬ q = 18 := by omega
  have e17 : ¬ q = 17 := by omega
  have e16 : ¬ q = 16 := by omega
  have e15 : ¬ q = 15 := by omega
  simp [parseL, e18, e17, e16, e15, h9, h14]

theorem parseL_8 (f : Nat) (ts : List Tok) :
    parseL (f + 1) 8 ts =
      match parseL f 9 ts with
      | some (a, ts') => chainL f a ts'
      | none => none := by
  simp [parseL]

theorem parseL_7 (f : Nat) (ts : List Tok) :
    parseL (f + 1) 7 ts =
      match ts with
      | .op s :: ts' =>
        if s = "not" then
          match parseL f 7 ts' with
          | some (x, ts'') => some (.unary .notOp x, ts'')
          | none => none
        else parseL f 8 ts
      | _ => parseL f 8 ts := by
  simp [parseL]

theorem parseL_low (f q : Nat) (ts : List Tok) (h1 : 1 ≤ q) (h6 : q ≤ 6) :
    parseL (f + 1) q ts = parseL f (q + 1) ts := by
  have e18 : ¬ q = 18 := by omega
  have e17 : ¬ q = 17 := by omega
  have e16 : ¬ q = 16 := by omega
  have e15 : ¬ q = 15 := by omega
  have e914 : ¬ (9 ≤ q ∧ q ≤ 14) := by omega
  have e8 : ¬ q = 8 := by omega
  have e7 : ¬ q = 7 := by omega
  simp [parseL, e18, e17, e16, e15, e914, e8, e7, h1, h6]

theorem foldL_unfold (f q : Nat) (a : PExpr) (ts : List Tok) :
    foldL (f + 1) q a ts =
      match ts with
      | .op s :: ts' =>
        (match bopOfStr s with
         | some op =>
           if bopPrec op = q then
             match parseL f (q + 1) ts' with
             | some (b, ts'') => foldL f q (.bin op a b) ts''
             | none => none
           else some (a, ts)
         | none => some (a, ts))
      | _ => some (a, ts) := by
  simp [foldL]

theorem chainL_unfold (f : Nat) (a : PExpr) (ts : List Tok) :
    chainL (f + 1) a ts =
      match ts with
      | .op s :: ts' =>
        (match copOfStr s with
         | some c =>
           (match parseL f 9 ts' with
            | some (b, ts'') =>
              (match chainMore f ts'' with
               | some (rest, ts''') => some (.cmp a c b rest, ts''')
               | none => none)
            | none => none)
         | none => some (a, ts))
      | _ => some (a, ts) := by
  simp [chainL]

theorem chainMore_unfold (f : Nat) (ts : List Tok) :
    chainMore (f + 1) ts =
      match ts with
      | .op s :: ts' =>
        (match copOfStr s with
         | some c =>
           (match parseL f 9 ts' with
            | some (b, ts'') =>
              (match chainMore f ts'' with
               | some (rest, ts''') => some (.cons c b rest, ts''')
               | none => none)
            | none => none)
         | none => some (.nil, ts))
      | _ => some (.nil, ts) := by
  simp [chainMore]

theorem parseL_bad (f q : Nat) (ts : List Tok) (h0 : q = 0 ∨ 19 ≤ q) :
    parseL (f + 1) q ts = none := by
  have e18 : ¬ q = 18 := by omega
  have e17 : ¬ q = 17 := by omega
  have e16 : ¬ q = 16 := by omega
  have e15 : ¬ q = 15 := by omega
  have e914 : ¬ (9 ≤ q ∧ q ≤ 14) := by omega
  have e8 : ¬ q = 8 := by omega
  have e7 : ¬ q = 7 := by omega
  have e16q : ¬ (1 ≤ q ∧ q ≤ 6) := by omega
  simp [parseL, e18, e17, e16, e15, e914, e8, e7, e16q]

theorem mono_step : ∀ f,
    (∀ q ts r, parseL f q ts = some r → parseL (f + 1) q ts = some r) ∧
    (∀ q a ts r, foldL f q a ts = some r → foldL (f + 1) q a ts = some r) ∧
    (∀ a ts r, chainL f a ts = some r → chainL (f + 1) a ts = some r) ∧
    (∀ ts r, chainMore f ts = some r → chainMore (f + 1) ts = some r) := by
  intro f
  induction f with
  | zero =>
    refine ⟨?_, ?_, ?_, ?_⟩ <;> intros <;> simp [parseL, foldL, chainL, chainMore] at *
  | succ f ih =>
    obtain ⟨ihp, ihf, ihc, ihm⟩ := ih
    refine ⟨?_, ?_, ?_, ?_⟩
    · intro q ts r h
      by_cases h18 : q = 18
      · subst h18
        rw [parseL_18] at h
        rw [parseL_18]
        match ts with
        | .name s :: ts' => exact h
        | [] => exact h
        | .op s :: ts' => exact h
        | .rpar :: ts' => exact h
        | .lpar :: ts' =>
          simp only [] at h ⊢
          cases hin : parseL f 1 ts' with
          | none => rw [hin] at h; exact absurd h (by simp)
          | some p => rw [hin] at h; rw [ihp _ _ _ hin]; exact h
      · by_cases h17 : q = 17
        · subst h17
          rw [parseL_17] at h
          rw [parseL_17]
          exact ihp _ _ _ h
        · by_cases h16 : q = 16
          · subst h16
            rw [parseL_16] at h
            rw [parseL_16]
            cases hin : parseL f 17 ts with
            | none => rw [hin] at h; exact absurd h (by simp)
            | some p =>
              rw [hin] at h
              rw [ihp _ _ _ hin]
              obtain ⟨a, ts'⟩ := p
              match ts' with
              | .op s :: ts'' =>
                simp only [] at h ⊢
                by_cases hpow : s = "**"
                · rw [if_pos hpow] at h ⊢
                  cases hin2 : parseL f 15 ts'' with
                  | none => rw [hin2] at h; exact absurd h (by simp)
                  | some p2 => rw [hin2] at h; rw [ihp _ _ _ hin2]; exact h
                · rw [if_neg hpow] at h ⊢; exact h
              | [] => exact h
              | .name s :: ts'' => exact h
              | .lpar :: ts'' => exact h
              | .rpar :: ts'' => exact h
          · by_cases h15 : q = 15
            · subst h15
              rw [parseL_15] at h
              rw [parseL_15]
              match ts with
              | [] => exact ihp _ _ _ h
              | .name s :: ts' => exact ihp _ _ _ h
              | .lpar :: ts' => exact ihp _ _ _ h
              | .rpar :: ts' => exact ihp _ _ _ h
              | .op s :: ts' =>
                simp only [] at h ⊢
                cases hu : symUopOfStr s with
                | none => rw [hu] at h; exact ihp _ _ _ h
                | some u =>
                  rw [hu] at h
                  dsimp only at h ⊢
                  cases hin : parseL f 15 ts' with
                  | none => rw [hin] at h; exact absurd h (by simp)
                  | some p => rw [hin] at h; rw [ihp _ _ _ hin]; exact h
            · by_cases h914 : 9 ≤ q ∧ q ≤ 14
              · rw [parseL_fold f q ts h914.1 h914.2] at h
                rw [parseL_fold (f + 1) q ts h914.1 h914.2]
                cases hin : parseL f (q + 1) ts with
                | none => rw [hin] at h; exact absurd h (by simp)
                | some p =>
                  rw [hin] at h
                  rw [ihp _ _ _ hin]
                  exact ihf _ _ _ _ h
              · by_cases h8 : q = 8
                · subst h8
                  rw [parseL_8] at h
                  rw [parseL_8]
                  cases hin : parseL f 9 ts with
                  | none => rw [hin] at h; exact absurd h (by simp)
                  | some p =>
                    rw [hin] at h
                    rw [ihp _ _ _ hin]
                    exact ihc _ _ _ h
                · by_cases h7 : q = 7
                  · subst h7
                    rw [parseL_7] at h
                    rw [parseL_7]
                    match ts with
                    | [] => exact ihp _ _ _ h
                    | .name s :: ts' => exact ihp _ _ _ h
                    | .lpar :: ts' => exact ihp _ _ _ h
                    | .rpar :: ts' => exact ihp _ _ _ h
                    | .op s :: ts' =>
                      simp only [] at h ⊢
                      by_cases hnot : s = "not"
                      · rw [if_pos hnot] at h ⊢
                        cases hin : parseL f 7 ts' with
                        | none => rw [hin] at h; exact absurd h (by simp)
                        | some p => rw [hin] at h; rw [ihp _ _ _ hin]; exact h
                      · rw [if_neg hnot] at h ⊢; exact ihp _ _ _ h
                  · by_cases h16q : 1 ≤ q ∧ q ≤ 6
                    · rw [parseL_low f q ts h16q.1 h16q.2] at h
                      rw [parseL_low (f + 1) q ts h16q.1 h16q.2]
                      exact ihp _ _ _ h
                    · rw [parseL_bad f q ts (by omega)] at h
                      exact absurd h (by simp)
    · intro q a ts r h
      rw [foldL_unfold] at h
      rw [foldL_unfold]
      match ts with
      | [] => exact h
      | .name s :: ts' => exact h
      | .lpar :: ts' => exact h
      | .rpar :: ts' => exact h
      | .op s :: ts' =>
        simp only [] at h ⊢
        cases hb : bopOfStr s with
        | none => rw [hb] at h; exact h
        | some op =>
          rw [hb] at h
          dsimp only at h ⊢
          by_cases hp : bopPrec op = q
          · rw [if_pos hp] at h ⊢
            cases hin : parseL f (q + 1) ts' with
            | none => rw [hin] at h; exact absurd h (by simp)
            | some p =>
              rw [hin] at h
              rw [ihp _ _ _ hin]
              exact ihf _ _ _ _ h
          · rw [if_neg hp] at h ⊢; exact h
    · intro a ts r h
      rw [chainL_unfold] at h
      rw [chainL_unfold]
      match ts with
      | [] => exact h
      | .name s :: ts' => exact h
      | .lpar :: ts' => exact h
      | .rpar :: ts' => exact h
      | .op s :: ts' =>
        simp only [] at h ⊢
        cases hc : copOfStr s with
        | none => rw [hc] at h; exact h
        | some c =>
          rw [hc] at h
          dsimp only at h ⊢
          cases hin : parseL f 9 ts' with
          | none => rw [hin] at h; exact absurd h (by simp)
          | some p =>
            obtain ⟨b, ts2⟩ := p
            rw [hin] at h
            rw [ihp _ _ _ hin]
            dsimp only at h ⊢
            cases hm : chainMore f ts2 with
            | none => rw [hm] at h; exact absurd h (by simp)
            | some pm => rw [hm] at h; rw [ihm _ _ hm]; exact h
    · intro ts r h
      rw [chainMore_unfold] at h
      rw [chainMore_unfold]
      match ts with
      | [] => exact h
      | .name s :: ts' => exact h
      | .lpar :: ts' => exact h
      | .rpar :: ts' => exact h
      | .op s :: ts' =>
        simp only [] at h ⊢
        cases hc : copOfStr s with
        | none => rw [hc] at h; exact h
        | some c =>
          rw [hc] at h
          dsimp only at h ⊢
          cases hin : parseL f 9 ts' with
          | none => rw [hin] at h; exact absurd h (by simp)
          | some p =>
            obtain ⟨b, ts2⟩ := p
            rw [hin] at h
            rw [ihp _ _ _ hin]
            dsimp only at h ⊢
            cases hm : chainMore f ts2 with
            | none => rw [hm] at h; exact absurd h (by simp)
            | some pm => rw [hm] at h; rw [ihm _ _ hm]; exact h

theorem parseL_mono : ∀ {f f' : Nat}, f ≤ f' → ∀ {q ts r}, parseL f q ts = some r →
    parseL f' q ts = some r := by
  intro f f' h
  induction h with
  | refl => intro _ _ _ hp; exact hp
  | step _ ih => intro q ts r hp; exact (mono_step _).1 _ _ _ (ih hp)

theorem foldL_mono : ∀ {f f' : Nat}, f ≤ f' → ∀ {q a ts r}, foldL f q a ts = some r →
    foldL f' q a ts = some r := by
  intro f f' h
  induction h with
  | refl => intro _ _ _ _ hp; exact hp
  | step _ ih => intro q a ts r hp; exact (mono_step _).2.1 _ _ _ _ (ih hp)

theorem chainMore_mono : ∀ {f f' : Nat}, f ≤ f' → ∀ {ts r}, chainMore f ts = some r →
    chainMore f' ts = some r := by
  intro f f' h
  induction h with
  | refl => intro _ _ hp; exact hp
  | step _ ih => intro ts r hp; exact (mono_step _).2.2.2 _ _ (ih hp)

theorem stopsB_mono {q q' : Nat} (hq : q ≤ q') {ts : List Tok} (h : stopsB q ts = true) :
    stopsB q' ts = true := by
  unfold stopsB at h ⊢
  match ts with
  | [] => rfl
  | .name s :: _ => rfl
  | .lpar :: _ => rfl
  | .rpar :: _ => rfl
  | .op s :: _ =>
    rcases hi : infixPrecOf s with _ | p
    · simp [hi]
    · simp only [hi, decide_eq_true_eq] at h ⊢
      omega

theorem bop_infixPrec {s : String} {op : Bop} (h : bopOfStr s = some op) :
    infixPrecOf s = some (bopPrec op) := by
  unfold infixPrecOf
  rw [h]

theorem cop_not_bop {s : String} {c : Cop} (h : copOfStr s = some c) :
    bopOfStr s = none := by
  unfold copOfStr at h
  split_ifs at h with h1 h2 h3 h4 h5 h6 h7 h8 h9 h10 <;>
    first
      | (subst h1; decide)
      | (subst h2; decide)
      | (subst h3; decide)
      | (subst h4; decide)
      | (subst h5; decide)
      | (subst h6; decide)
      | (subst h7; decide)
      | (subst h8; decide)
      | (subst h9; decide)
      | (subst h10; decide)
      | exact absurd h (by simp)

theorem cop_infixPrec {s : String} {c : Cop} (h : copOfStr s = some c) :
    infixPrecOf s = some 8 := by
  unfold infixPrecOf
  rw [cop_not_bop h, h]

theorem foldL_stop (f q : Nat) (a : PExpr) (ts : List Tok) (h : stopsB q ts = true) :
    foldL (f + 1) q a ts = some (a, ts) := by
  rw [foldL_unfold]
  match ts with
  | [] => rfl
  | .name s :: _ => rfl
  | .lpar :: _ => rfl
  | .rpar :: _ => rfl
  | .op s :: ts' =>
    rcases hb : bopOfStr s with _ | op
    · simp only [hb]
    · have hlt : bopPrec op < q := by
        simp only [stopsB] at h
        rw [bop_infixPrec hb] at h
        simpa using h
      simp only [hb]
      rw [if_neg (by omega)]

theorem chainL_stop (f : Nat) (a : PExpr) (ts : List Tok) (h : stopsB 8 ts = true) :
    chainL (f + 1) a ts = some (a, ts) := by
  rw [chainL_unfold]
  match ts with
  | [] => rfl
  | .name s :: _ => rfl
  | .lpar :: _ => rfl
  | .rpar :: _ => rfl
  | .op s :: ts' =>
    rcases hc : copOfStr s with _ | c
    · simp only [hc]
    · exfalso
      simp only [stopsB] at h
      rw [cop_infixPrec hc] at h
      simp at h

theorem pow_not_continuable {ts : List Tok} (h : stopsB 16 ts = true) :
    ∀ s ts', ts = .op s :: ts' → s ≠ "**" := by
  intro s ts' hts hs
  subst hts
  subst hs
  simp only [stopsB] at h
  rw [show infixPrecOf "**" = some 16 from rfl] at h
  simp at h

theorem step_down (q : Nat) (ts : List Tok) (e : PExpr) (rest : List Tok)
    (h1 : 1 ≤ q) (h17 : q ≤ 17) (hstop : stopsB q rest = true)
    (hnot : q = 7 → ts.head? ≠ some (.op "not"))
    (hsym : q = 15 → ∀ s, ts.head? = some (.op s) → symUopOfStr s = none)
    (hp : ParsesTo (q + 1) ts e rest) : ParsesTo q ts e rest := by
  obtain ⟨f, hf⟩ := hp
  by_cases hq17 : q = 17
  · subst hq17
    exact ⟨f + 1, by rw [parseL_17]; exact hf⟩
  · by_cases hq16 : q = 16
    · subst hq16
      refine ⟨f + 1, ?_⟩
      rw [parseL_16, hf]
      match rest, hstop with
      | [], _ => rfl
      | .name s :: _, _ => rfl
      | .lpar :: _, _ => rfl
      | .rpar :: _, _ => rfl
      | .op s :: ts', hstop =>
        dsimp only
        rw [if_neg (pow_not_continuable hstop s ts' rfl)]
    · by_cases hq15 : q = 15
      · subst hq15
        refine ⟨f + 1, ?_⟩
        rw [parseL_15]
        match ts, hsym with
        | [], _ => exact hf
        | .name s :: _, _ => exact hf
        | .lpar :: _, _ => exact hf
        | .rpar :: _, _ => exact hf
        | .op s :: ts', hsym =>
          dsimp only
          rw [hsym rfl s rfl]
          exact hf
      · by_cases hq914 : 9 ≤ q ∧ q ≤ 14
        · refine ⟨f + 2, ?_⟩
          rw [parseL_fold (f + 1) q ts hq914.1 hq914.2]
          rw [parseL_mono (Nat.le_succ f) hf]
          exact foldL_stop f q e rest hstop
        · by_cases hq8 : q = 8
          · subst hq8
            refine ⟨f + 2, ?_⟩
            rw [parseL_8]
            rw [parseL_mono (Nat.le_succ f) hf]
            exact chainL_stop f e rest hstop
          · by_cases hq7 : q = 7
            · subst hq7
              refine ⟨f + 1, ?_⟩
              rw [parseL_7]
              match ts, hnot with
              | [], _ => exact hf
              | .name s :: _, _ => exact hf
              | .lpar :: _, _ => exact hf
              | .rpar :: _, _ => exact hf
              | .op s :: ts', hnot =>
                dsimp only
                rw [if_neg]
                · exact hf
                · intro hs
                  subst hs
                  exact hnot rfl rfl
            · refine ⟨f + 1, ?_⟩
              rw [parseL_low f q ts h1 (by omega)]
              exact hf

theorem climb : ∀ (d q : Nat) (ts : List Tok) (e : PExpr) (rest : List Tok),
    1 ≤ q → q + d ≤ 18 → stopsB q rest = true →
    (q ≤ 7 → 7 < q + d → ts.head? ≠ some (.op "not")) →
    (q ≤ 15 → 15 < q + d → ∀ s, ts.head? = some (.op s) → symUopOfStr s = none) →
    ParsesTo (q + d) ts e rest → ParsesTo q ts e rest := by
  intro d
  induction d with
  | zero => intro q ts e rest _ _ _ _ _ hp; exact hp
  | succ d ih =>
    intro q ts e rest h1 h18 hstop hnot hsym hp
    refine ih q ts e rest h1 (by omega) hstop
      (fun a b => hnot a (by omega)) (fun a b => hsym a (by omega)) ?_
    exact step_down (q + d) ts e rest (by omega) (by omega)
      (stopsB_mono (by omega) hstop)
      (fun h7 => hnot (by omega) (by omega))
      (fun h15 => hsym (by omega) (by omega))
      hp

theorem bopOfStr_bopStr : ∀ op : Bop, bopOfStr (bopStr op) = some op := by
  intro op; cases op <;> decide

theorem copOfStr_copStr : ∀ c : Cop, copOfStr (copStr c) = some c := by
  intro c; cases c <;> decide

theorem bopOfStr_copStr : ∀ c : Cop, bopOfStr (copStr c) = none := by
  intro c; cases c <;> decide

theorem symUop_uopStr : ∀ u : Uop, u ≠ .notOp → symUopOfStr (uopStr u) = some u := by
  intro u h
  cases u with
  | notOp => exact absurd rfl h
  | invert => decide
  | uadd => decide
  | usub => decide

theorem bopPrec_range : ∀ op : Bop, 9 ≤ bopPrec op ∧ bopPrec op ≤ 16 := by
  intro op; cases op <;> decide

theorem bopPrec_ne_15 : ∀ op : Bop, bopPrec op ≠ 15 := by
  intro op; cases op <;> decide

theorem pow_of_prec16 : ∀ op : Bop, 16 ≤ bopPrec op → op = .pow := by
  intro op h; cases op <;> first | rfl | exact absurd h (by decide)

theorem rassoc_false : ∀ op : Bop, op ≠ .pow → bopRassoc op = false := by
  intro op h; cases op <;> first | rfl | exact absurd rfl h

theorem pnext_ge (p : Nat) : p ≤ pnext p := by
  unfold pnext; split <;> omega

theorem precOf_ge_7 : ∀ e : PExpr, 7 ≤ precOf e := by
  intro e
  cases e with
  | name s => exact le_trans (by decide) (le_refl 18)
  | unary u x => cases u <;> simp [precOf, uopPrec]
  | bin op l r => exact le_trans (by decide) (bopPrec_range op).1
  | cmp l c r ch => simp [precOf]

theorem precOf_le_18 : ∀ e : PExpr, precOf e ≤ 18 := by
  intro e
  cases e with
  | name s => exact le_refl 18
  | unary u x => cases u <;> simp [precOf, uopPrec]
  | bin op l r => exact le_trans (bopPrec_range op).2 (by decide)
  | cmp l c r ch => simp [precOf]

theorem prec17_name : ∀ e : PExpr, 17 ≤ precOf e → ∃ s, e = .name s := by
  intro e h
  cases e with
  | name s => exact ⟨s, rfl⟩
  | unary u x => exfalso; cases u <;> simp [precOf, uopPrec] at h
  | bin op l r =>
    exfalso
    have h2 := (bopPrec_range op).2
    have h3 : 17 ≤ bopPrec op := h
    omega
  | cmp l c r ch => simp [precOf] at h

theorem infixPrec_ne_15 {s : String} {p : Nat} (h : infixPrecOf s = some p) : p ≠ 15 := by
  unfold infixPrecOf at h
  rcases hb : bopOfStr s with _ | op
  · rw [hb] at h
    rcases hc : copOfStr s with _ | c
    · rw [hc] at h
      simp at h
    · rw [hc] at h
      simp only [Option.some.injEq] at h
      omega
  · rw [hb] at h
    simp only [Option.some.injEq] at h
    have := bopPrec_ne_15 op
    omega

theorem stops15_16 {ts : List Tok} (h : stopsB 16 ts = true) : stopsB 15 ts = true := by
  unfold stopsB at h ⊢
  match ts with
  | [] => rfl
  | .name s :: _ => rfl
  | .lpar :: _ => rfl
  | .rpar :: _ => rfl
  | .op s :: _ =>
    rcases hi : infixPrecOf s with _ | p
    · simp [hi]
    · have hne := infixPrec_ne_15 hi
      simp only [hi, decide_eq_true_eq] at h ⊢
      omega

theorem stops_bop (q : Nat) (op : Bop) (ts : List Tok) (h : bopPrec op < q) :
    stopsB q (.op (bopStr op) :: ts) = true := by
  simp only [stopsB]
  rw [bop_infixPrec (bopOfStr_bopStr op)]
  simpa using h

theorem cop_infix8 (c : Cop) : infixPrecOf (copStr c) = some 8 := by
  unfold infixPrecOf
  rw [bopOfStr_copStr c]
  rw [copOfStr_copStr c]

theorem stops_cop (q : Nat) (c : Cop) (ts : List Tok) (h : 8 < q) :
    stopsB q (.op (copStr c) :: ts) = true := by
  simp only [stopsB]
  rw [cop_infix8 c]
  simpa using h

theorem stops9_chain (ch : Chain) (rest : List Tok) (h : stopsB 9 rest = true) :
    stopsB 9 (renderChain ch ++ rest) = true := by
  cases ch with
  | nil => simpa [renderChain] using h
  | cons c e rest' =>
    simp only [renderChain, List.cons_append]
    exact stops_cop 9 c _ (by decide)

theorem headNot : ∀ n : Nat, ∀ e : PExpr, sizeOf e < n → ∀ rest : List Tok, 8 ≤ precOf e →
    (renderCore e ++ rest).head? ≠ some (.op "not") := by
  intro n
  induction n with
  | zero => intro e h; exact absurd h (Nat.not_lt_zero _)
  | succ n ih =>
    intro e he rest hp
    match e with
    | .name s => simp [renderCore]
    | .unary u x =>
      cases u with
      | notOp => simp [precOf, uopPrec] at hp
      | invert => simp [renderCore, uopStr]
      | uadd => simp [renderCore, uopStr]
      | usub => simp [renderCore, uopStr]
    | .bin op l r =>
      simp only [renderCore]
      by_cases hl : precOf l < (if bopRassoc op then pnext (bopPrec op) else bopPrec op)
      · rw [decide_eq_true hl]
        simp [wrapIf]
      · rw [decide_eq_false hl]
        have hkey : bopPrec op ≤ (if bopRassoc op then pnext (bopPrec op) else bopPrec op) := by
          split
          · exact pnext_ge _
          · exact le_refl _
        have hge := (bopPrec_range op).1
        have hsz : sizeOf l < sizeOf (PExpr.bin op l r) := by
          simp only [PExpr.bin.sizeOf_spec]
          omega
        have hgoal := ih l (by omega) ((.op (bopStr op) ::
          wrapIf (decide (precOf r < if bopRassoc op then bopPrec op else pnext (bopPrec op)))
            (renderCore r)) ++ rest) (by omega)
        simpa [wrapIf, List.append_assoc] using hgoal
    | .cmp l c r ch =>
      simp only [renderCore]
      by_cases hl : precOf l < 9
      · rw [decide_eq_true hl]
        simp [wrapIf]
      · rw [decide_eq_false hl]
        have hsz : sizeOf l < sizeOf (PExpr.cmp l c r ch) := by
          simp only [PExpr.cmp.sizeOf_spec]
          omega
        have hgoal := ih l (by omega) ((.op (copStr c) ::
          wrapIf (decide (precOf r < 9)) (renderCore r) ++ renderChain ch) ++ rest) (by omega)
        simpa [wrapIf, List.append_assoc] using hgoal

theorem head16 : ∀ (e : PExpr) (rest : List Tok), 16 ≤ precOf e →
    (renderCore e ++ rest).head? = some .lpar ∨
      ∃ s, (renderCore e ++ rest).head? = some (.name s) := by
  intro e rest hp
  match e with
  | .name s => exact Or.inr ⟨s, by simp [renderCore]⟩
  | .unary u x => exfalso; cases u <;> simp [precOf, uopPrec] at hp
  | .cmp l c r ch => exfalso; simp [precOf] at hp
  | .bin op l r =>
    have hpow : op = .pow := pow_of_prec16 op hp
    subst hpow
    simp only [renderCore]
    by_cases hl : precOf l < (if bopRassoc .pow then pnext (bopPrec .pow) else bopPrec .pow)
    · rw [decide_eq_true hl]
      left
      simp [wrapIf]
    · rw [decide_eq_false hl]
      have h17 : 17 ≤ precOf l := by
        rw [show (if bopRassoc Bop.pow then pnext (bopPrec Bop.pow) else bopPrec Bop.pow) = 17
          from rfl] at hl
        omega
      obtain ⟨s, rfl⟩ := prec17_name l h17
      right
      exact ⟨s, by simp [wrapIf, renderCore]⟩

theorem headSym (e : PExpr) (rest : List Tok) (hp : 16 ≤ precOf e) :
    ∀ s, (renderCore e ++ rest).head? = some (.op s) → symUopOfStr s = none := by
  intro s hs
  rcases head16 e rest hp with h | ⟨t, h⟩ <;> rw [h] at hs <;> exact absurd hs (by simp)

end Minipy3
namespace Minipy3

/-- Trace of the left-fold at level `p`: starting from accumulator `a` with
remaining tokens `ts`, the fold reaches accumulator `e` with remaining `fin`,
consuming one `p`-level operator and one `(p+1)`-level operand per step. -/
inductive FoldReach (p : Nat) : PExpr → List Tok → PExpr → List Tok → Prop where
  | refl (a : PExpr) (ts : List Tok) : FoldReach p a ts a ts
  | step (a : PExpr) (op : Bop) (b : PExpr) (ts ts' : List Tok) (e : PExpr) (fin : List Tok)
      (hop : bopPrec op = p) (hp : ParsesTo (p + 1) ts b ts')
      (h : FoldReach p (.bin op a b) ts' e fin) :
      FoldReach p a (.op (bopStr op) :: ts) e fin

theorem foldReach_trans {p : Nat} {a : PExpr} {ts : List Tok} {e : PExpr} {mid : List Tok}
    {b : PExpr} {fin : List Tok} (h1 : FoldReach p a ts e mid) (h2 : FoldReach p e mid b fin) :
    FoldReach p a ts b fin := by
  induction h1 with
  | refl a ts => exact h2
  | step a op b' ts ts' e' fin' hop hp h ih => exact FoldReach.step _ _ _ _ _ _ _ hop hp (ih h2)

theorem foldReach_run {p : Nat} {a : PExpr} {ts : List Tok} {e : PExpr} {X : List Tok}
    (h : FoldReach p a ts e X) (hstop : stopsB p X = true) :
    ∃ f, foldL f p a ts = some (e, X) := by
  induction h with
  | refl a ts => exact ⟨1, foldL_stop 0 p a ts hstop⟩
  | step a op b ts ts' e fin hop hp h ih =>
    obtain ⟨f1, hf1⟩ := hp
    obtain ⟨f2, hf2⟩ := ih hstop
    refine ⟨max f1 f2 + 1, ?_⟩
    rw [foldL_unfold]
    simp only [bopOfStr_bopStr]
    rw [if_pos hop]
    rw [parseL_mono (le_max_left f1 f2) hf1]
    exact foldL_mono (le_max_right f1 f2) hf2

theorem render_eq_of_ne {l : PExpr} {p : Nat} (h : precOf l ≠ p) :
    render p l = render (p + 1) l := by
  unfold render
  congr 1
  simp only [decide_eq_decide]
  omega

theorem bin_of_prec {e : PExpr} {p : Nat} (h9 : 9 ≤ p) (h14 : p ≤ 14) (hp : precOf e = p) :
    ∃ op l r, e = PExpr.bin op l r ∧ bopPrec op = p := by
  cases e with
  | name s => exfalso; simp [precOf] at hp; omega
  | unary u x => exfalso; cases u <;> simp [precOf, uopPrec] at hp <;> omega
  | bin op l r => exact ⟨op, l, r, rfl, hp⟩
  | cmp l c r ch => exfalso; simp [precOf] at hp; omega

theorem renderCore_bin_eq {op : Bop} {l r : PExpr} (hnp : op ≠ .pow) :
    renderCore (.bin op l r) =
      render (bopPrec op) l ++ .op (bopStr op) :: render (bopPrec op + 1) r := by
  have hr := rassoc_false op hnp
  have hlt : bopPrec op < 18 := by
    have := (bopPrec_range op).2
    omega
  simp only [renderCore, render, hr, if_neg, Bool.false_eq_true, if_false, pnext, if_pos hlt]

theorem spine_decomp : ∀ n : Nat, ∀ p : Nat, 9 ≤ p → p ≤ 14 →
    ∀ e : PExpr, sizeOf e < n → precOf e = p →
    (∀ e' : PExpr, sizeOf e' < sizeOf e → ∀ q rest, 1 ≤ q → q ≤ 18 → stopsB q rest = true →
        ParsesTo q (render q e' ++ rest) e' rest) →
    ∀ X : List Tok, stopsB (p + 1) X = true →
    ∃ f a1 T1, parseL f (p + 1) (renderCore e ++ X) = some (a1, T1) ∧ FoldReach p a1 T1 e X := by
  intro n
  induction n with
  | zero => intro p _ _ e h; exact absurd h (Nat.not_lt_zero _)
  | succ n ih =>
    intro p h9 h14 e he hp rt X hstopX
    obtain ⟨op, l, r, rfl, hop⟩ := bin_of_prec h9 h14 hp
    have hnp : op ≠ .pow := by
      intro hc
      subst hc
      simp [bopPrec] at hop
      omega
    have hszl : sizeOf l < sizeOf (PExpr.bin op l r) := by
      simp only [PExpr.bin.sizeOf_spec]; omega
    have hszr : sizeOf r < sizeOf (PExpr.bin op l r) := by
      simp only [PExpr.bin.sizeOf_spec]; omega
    have hre := @renderCore_bin_eq op l r hnp
    rw [hop] at hre
    -- the middle-token suffix after the left part
    have hstopM : stopsB (p + 1) (.op (bopStr op) :: (render (p + 1) r ++ X)) = true :=
      stops_bop (p + 1) op _ (by omega)
    -- the right operand parses at level p+1 leaving X
    have hrparse : ParsesTo (p + 1) (render (p + 1) r ++ X) r X :=
      rt r hszr (p + 1) X (by omega) (by omega) hstopX
    -- single step of the fold consuming op and the right operand
    have hstep : FoldReach p l (.op (bopStr op) :: (render (p + 1) r ++ X)) (.bin op l r) X :=
      FoldReach.step l op r _ X _ X hop hrparse (FoldReach.refl _ _)
    by_cases hlp : precOf l = p
    · -- left operand is itself a p-level chain: recurse into its spine
      have hrt' : ∀ e' : PExpr, sizeOf e' < sizeOf l → ∀ q rest, 1 ≤ q → q ≤ 18 →
          stopsB q rest = true → ParsesTo q (render q e' ++ rest) e' rest := by
        intro e' hsz q rest a b c
        exact rt e' (by omega) q rest a b c
      have hl : render p l = renderCore l := by
        unfold render
        rw [decide_eq_false (by omega)]
        rfl
      obtain ⟨f, a1, T1, hparse, hreach⟩ := ih p h9 h14 l (by omega) hlp hrt'
        (.op (bopStr op) :: (render (p + 1) r ++ X)) hstopM
      refine ⟨f, a1, T1, ?_, foldReach_trans hreach hstep⟩
      rw [hre, hl, List.append_assoc, List.cons_append]
      exact hparse
    · -- left operand closes at a different level: it is one (p+1)-chunk
      have hlparse : ParsesTo (p + 1) (render (p + 1) l ++
          (.op (bopStr op) :: (render (p + 1) r ++ X))) l
          (.op (bopStr op) :: (render (p + 1) r ++ X)) :=
        rt l hszl (p + 1) _ (by omega) (by omega) hstopM
      obtain ⟨f, hf⟩ := hlparse
      refine ⟨f, l, _, ?_, hstep⟩
      rw [hre, render_eq_of_ne hlp, List.append_assoc, List.cons_append]
      exact hf

end Minipy3
namespace Minipy3

theorem rt_main : ∀ n : Nat,
    (∀ e : PExpr, sizeOf e < n → ∀ q rest, 1 ≤ q → q ≤ 18 → stopsB q rest = true →
      ParsesTo q (render q e ++ rest) e rest) ∧
    (∀ ch : Chain, sizeOf ch < n → ∀ rest, stopsB 8 rest = true →
      ∃ f, chainMore f (renderChain ch ++ rest) = some (ch, rest)) := by
  intro n
  induction n with
  | zero =>
    exact ⟨fun e h => absurd h (Nat.not_lt_zero _), fun ch h => absurd h (Nat.not_lt_zero _)⟩
  | succ n ih =>
    obtain ⟨ihE, ihC⟩ := ih
    constructor
    · intro e he q rest h1 h18 hstop
      have hnat : ∀ rest', stopsB (precOf e) rest' = true →
          ParsesTo (precOf e) (renderCore e ++ rest') e rest' := by
        intro rest' hst
        match e, he, hst with
        | .name s, he, hst => exact ⟨1, rfl⟩
        | .unary .notOp x, he, hst =>
          have hsz : sizeOf x < n := by
            have h := he
            simp only [PExpr.unary.sizeOf_spec] at h
            omega
          obtain ⟨f, hf⟩ := ihE x hsz 7 rest' (by omega) (by omega) hst
          refine ⟨f + 1, ?_⟩
          show (match parseL f 7 (render 7 x ++ rest') with
            | some (y, ts'') => some (PExpr.unary Uop.notOp y, ts'')
            | none => none) = some (PExpr.unary Uop.notOp x, rest')
          rw [hf]
        | .unary .invert x, he, hst =>
          have hsz : sizeOf x < n := by
            have h := he
            simp only [PExpr.unary.sizeOf_spec] at h
            omega
          obtain ⟨f, hf⟩ := ihE x hsz 15 rest' (by omega) (by omega) hst
          refine ⟨f + 1, ?_⟩
          show (match parseL f 15 (render 15 x ++ rest') with
            | some (y, ts'') => some (PExpr.unary Uop.invert y, ts'')
            | none => none) = some (PExpr.unary Uop.invert x, rest')
          rw [hf]
        | .unary .uadd x, he, hst =>
          have hsz : sizeOf x < n := by
            have h := he
            simp only [PExpr.unary.sizeOf_spec] at h
            omega
          obtain ⟨f, hf⟩ := ihE x hsz 15 rest' (by omega) (by omega) hst
          refine ⟨f + 1, ?_⟩
          show (match parseL f 15 (render 15 x ++ rest') with
            | some (y, ts'') => some (PExpr.unary Uop.uadd y, ts'')
            | none => none) = some (PExpr.unary Uop.uadd x, rest')
          rw [hf]
        | .unary .usub x, he, hst =>
          have hsz : sizeOf x < n := by
            have h := he
            simp only [PExpr.unary.sizeOf_spec] at h
            omega
          obtain ⟨f, hf⟩ := ihE x hsz 15 rest' (by omega) (by omega) hst
          refine ⟨f + 1, ?_⟩
          show (match parseL f 15 (render 15 x ++ rest') with
            | some (y, ts'') => some (PExpr.unary Uop.usub y, ts'')
            | none => none) = some (PExpr.unary Uop.usub x, rest')
          rw [hf]
        | .bin op l r, he, hst =>
          have hszl : sizeOf l < n := by
            have h := he
            simp only [PExpr.bin.sizeOf_spec] at h
            omega
          have hszr : sizeOf r < n := by
            have h := he
            simp only [PExpr.bin.sizeOf_spec] at h
            omega
          by_cases hpow : op = Bop.pow
          · subst hpow
            have hstM : stopsB 17 (Tok.op "**" :: (render 16 r ++ rest')) = true :=
              stops_bop 17 Bop.pow (render 16 r ++ rest') (by decide)
            obtain ⟨f1, hf1⟩ := ihE l hszl 17 (Tok.op "**" :: (render 16 r ++ rest'))
              (by omega) (by omega) hstM
            have hst16 : stopsB 16 rest' = true := hst
            have hr16 : ParsesTo 16 (render 16 r ++ rest') r rest' :=
              ihE r hszr 16 rest' (by omega) (by omega) hst16
            have hr15 : ParsesTo 15 (render 16 r ++ rest') r rest' := by
              refine step_down 15 _ r rest' (by omega) (by omega) (stops15_16 hst16) ?_ ?_ hr16
              · intro h7
                exact absurd h7 (by omega)
              · intro _ s hs
                by_cases hw : precOf r < 16
                · rw [show render 16 r = Tok.lpar :: (renderCore r ++ [Tok.rpar]) from by
                      unfold render; rw [decide_eq_true hw]; rfl] at hs
                  simp at hs
                · rw [show render 16 r = renderCore r from by
                      unfold render; rw [decide_eq_false hw]; rfl] at hs
                  exact headSym r rest' (by omega) s hs
            obtain ⟨f2, hf2⟩ := hr15
            have e1 := parseL_mono (show f1 ≤ f1 + f2 by omega) hf1
            have e2 := parseL_mono (show f2 ≤ f1 + f2 by omega) hf2
            refine ⟨f1 + f2 + 1, ?_⟩
            rw [show renderCore (PExpr.bin Bop.pow l r)
                = render 17 l ++ (Tok.op "**" :: render 16 r) from rfl,
              List.append_assoc, List.cons_append]
            show parseL (f1 + f2 + 1) 16
                (render 17 l ++ (Tok.op "**" :: (render 16 r ++ rest')))
              = some (PExpr.bin Bop.pow l r, rest')
            rw [parseL_16]
            simp [e1, e2]
          · have hrange := bopPrec_range op
            have h15ne := bopPrec_ne_15 op
            have h14 : bopPrec op ≤ 14 := by
              by_contra hc
              push_neg at hc
              exact hpow (pow_of_prec16 op (by omega))
            have hrt : ∀ e' : PExpr, sizeOf e' < sizeOf (PExpr.bin op l r) →
                ∀ q₀ r₀, 1 ≤ q₀ → q₀ ≤ 18 → stopsB q₀ r₀ = true →
                ParsesTo q₀ (render q₀ e' ++ r₀) e' r₀ := by
              intro e' hlt q₀ r₀ a b c
              exact ihE e' (by omega) q₀ r₀ a b c
            have hstP : stopsB (bopPrec op) rest' = true := hst
            obtain ⟨f1, a1, T1, hparse, hreach⟩ :=
              spine_decomp (sizeOf (PExpr.bin op l r) + 1) (bopPrec op) hrange.1 h14
                (PExpr.bin op l r) (Nat.lt_succ_self _) rfl hrt rest'
                (stopsB_mono (by omega) hstP)
            obtain ⟨f2, hfold⟩ := foldReach_run hreach hstP
            have e1 := parseL_mono (show f1 ≤ f1 + f2 by omega) hparse
            have e2 := foldL_mono (show f2 ≤ f1 + f2 by omega) hfold
            refine ⟨f1 + f2 + 1, ?_⟩
            show parseL (f1 + f2 + 1) (bopPrec op) (renderCore (PExpr.bin op l r) ++ rest')
              = some (PExpr.bin op l r, rest')
            rw [parseL_fold (f1 + f2) (bopPrec op) _ hrange.1 h14]
            rw [e1]
            exact e2
        | .cmp l c r ch, he, hst =>
          have hszl : sizeOf l < n := by
            have h := he
            simp only [PExpr.cmp.sizeOf_spec] at h
            omega
          have hszr : sizeOf r < n := by
            have h := he
            simp only [PExpr.cmp.sizeOf_spec] at h
            omega
          have hszc : sizeOf ch < n := by
            have h := he
            simp only [PExpr.cmp.sizeOf_spec] at h
            omega
          have hst8 : stopsB 8 rest' = true := hst
          have hstR : stopsB 9 (renderChain ch ++ rest') = true :=
            stops9_chain ch rest' (stopsB_mono (by omega) hst8)
          have hstM : stopsB 9
              (Tok.op (copStr c) :: (render 9 r ++ (renderChain ch ++ rest'))) = true :=
            stops_cop 9 c _ (by omega)
          obtain ⟨f1, hf1⟩ := ihE l hszl 9
            (Tok.op (copStr c) :: (render 9 r ++ (renderChain ch ++ rest')))
            (by omega) (by omega) hstM
          obtain ⟨f2, hf2⟩ := ihE r hszr 9 (renderChain ch ++ rest') (by omega) (by omega) hstR
          obtain ⟨f3, hf3⟩ := ihC ch hszc rest' hst8
          have e1 := parseL_mono (show f1 ≤ f1 + f2 + f3 + 1 by omega) hf1
          have e2 := parseL_mono (show f2 ≤ f1 + f2 + f3 by omega) hf2
          have e3 := chainMore_mono (show f3 ≤ f1 + f2 + f3 by omega) hf3
          refine ⟨f1 + f2 + f3 + 1 + 1, ?_⟩
          rw [show renderCore (PExpr.cmp l c r ch)
              = render 9 l ++ (Tok.op (copStr c) :: (render 9 r ++ renderChain ch)) from by
                simp [renderCore, render],
            List.append_assoc, List.cons_append, List.append_assoc]
          show parseL (f1 + f2 + f3 + 1 + 1) 8
              (render 9 l ++ (Tok.op (copStr c) :: (render 9 r ++ (renderChain ch ++ rest'))))
            = some (PExpr.cmp l c r ch, rest')
          rw [parseL_8]
          rw [e1]
          show chainL (f1 + f2 + f3 + 1) l
              (Tok.op (copStr c) :: (render 9 r ++ (renderChain ch ++ rest')))
            = some (PExpr.cmp l c r ch, rest')
          rw [chainL_unfold]
          simp [copOfStr_copStr, e2, e3]
      have hge := precOf_ge_7 e
      have hle := precOf_le_18 e
      by_cases hw : precOf e < q
      · have hrq : render q e = Tok.lpar :: (renderCore e ++ [Tok.rpar]) := by
          unfold render
          rw [decide_eq_true hw]
          rfl
        have hinner : ParsesTo 1 (renderCore e ++ (Tok.rpar :: rest)) e (Tok.rpar :: rest) := by
          have hnat1 := hnat (Tok.rpar :: rest) rfl
          have hd : 1 + (precOf e - 1) = precOf e := by omega
          refine climb (precOf e - 1) 1 _ e _ (le_refl 1) (by omega) rfl ?_ ?_
            (by rw [hd]; exact hnat1)
          · intro _ h7
            exact headNot (sizeOf e + 1) e (Nat.lt_succ_self _) _ (by omega)
          · intro _ h15
            exact headSym e _ (by omega)
        obtain ⟨f, hf⟩ := hinner
        have h18p : ParsesTo 18 (render q e ++ rest) e rest := by
          refine ⟨f + 1, ?_⟩
          rw [hrq, List.cons_append, List.append_assoc, List.singleton_append]
          rw [parseL_18]
          simp [hf]
        have hd2 : q + (18 - q) = 18 := by omega
        refine climb (18 - q) q _ e rest h1 (by omega) hstop ?_ ?_
          (by rw [hd2]; exact h18p)
        · intro _ _ hc
          rw [hrq] at hc
          simp at hc
        · intro _ _ s hs
          rw [hrq] at hs
          simp at hs
      · push_neg at hw
        have hrq : render q e = renderCore e := by
          unfold render
          rw [decide_eq_false (by omega)]
          rfl
        rw [hrq]
        have hd : q + (precOf e - q) = precOf e := by omega
        refine climb (precOf e - q) q _ e rest h1 (by omega) hstop ?_ ?_
          (by rw [hd]; exact hnat rest (stopsB_mono (by omega) hstop))
        · intro _ h7
          exact headNot (sizeOf e + 1) e (Nat.lt_succ_self _) rest (by omega)
        · intro _ h15 s hs
          exact headSym e rest (by omega) s hs
    · intro ch hch rest hstop
      match ch, hch with
      | .nil, hch =>
        refine ⟨1, ?_⟩
        show chainMore (0 + 1) rest = some (Chain.nil, rest)
        rw [chainMore_unfold]
        match rest, hstop with
        | [], _ => rfl
        | .name s :: _, _ => rfl
        | .lpar :: _, _ => rfl
        | .rpar :: _, _ => rfl
        | .op s :: ts', hstop =>
          rcases hcs : copOfStr s with _ | c
          · simp only [hcs]
          · exfalso
            simp only [stopsB] at hstop
            rw [cop_infixPrec hcs] at hstop
            simp at hstop
      | .cons c e' ch', hch =>
        have hsze : sizeOf e' < n := by
          have h := hch
          simp only [Chain.cons.sizeOf_spec] at h
          omega
        have hszc : sizeOf ch' < n := by
          have h := hch
          simp only [Chain.cons.sizeOf_spec] at h
          omega
        have hstR : stopsB 9 (renderChain ch' ++ rest) = true :=
          stops9_chain ch' rest (stopsB_mono (by omega) hstop)
        obtain ⟨f1, hf1⟩ := ihE e' hsze 9 (renderChain ch' ++ rest) (by omega) (by omega) hstR
        obtain ⟨f2, hf2⟩ := ihC ch' hszc rest hstop
        have e1 := parseL_mono (show f1 ≤ f1 + f2 by omega) hf1
        have e2 := chainMore_mono (show f2 ≤ f1 + f2 by omega) hf2
        refine ⟨f1 + f2 + 1, ?_⟩
        rw [show renderChain (Chain.cons c e' ch')
            = Tok.op (copStr c) :: (render 9 e' ++ renderChain ch') from rfl,
          List.cons_append, List.append_assoc]
        rw [chainMore_unfold]
        simp [copOfStr_copStr, e1, e2]

theorem render_roundtrip (e : PExpr) (q : Nat) (h1 : 1 ≤ q) (h18 : q ≤ 18) :
    ParsesTo q (render q e) e [] := by
  have h := (rt_main (sizeOf e + 1)).1 e (Nat.lt_succ_self _) q [] h1 h18 rfl
  simpa using h

end Minipy3
namespace Minipy3

/-- Claim C2: the renderer parenthesises a subexpression exactly when its
precedence is strictly below the position requirement (the associativity
adjustment being the `pnext` bump on the disallowed side inside `renderCore`),
and reparsing the rendered token string at the same requirement level yields a
tree structurally equal to the input with nothing left over.  The claim is
amended: its final clause — that removing any emitted parenthesis changes the
parsed tree — is refuted separately. -/
theorem C2_roundtrip (e : PExpr) (q : Nat) (h1 : 1 ≤ q) (h18 : q ≤ 18) :
    render q e = (if precOf e < q then Tok.lpar :: (renderCore e ++ [Tok.rpar])
      else renderCore e) ∧
    ParsesTo q (render q e) e [] := by
  constructor
  · unfold render
    by_cases hw : precOf e < q
    · rw [decide_eq_true hw, if_pos hw]
      rfl
    · rw [decide_eq_false hw, if_neg hw]
      rfl
  · exact render_roundtrip e q h1 h18

/-- Witness for C2_roundtrip: the concrete expression `x + y` at the statement
requirement level 4 satisfies both conjuncts. -/
theorem C2_roundtrip_witness :
    render 4 (PExpr.bin Bop.add (PExpr.name "x") (PExpr.name "y"))
        = (if precOf (PExpr.bin Bop.add (PExpr.name "x") (PExpr.name "y")) < 4 then
            Tok.lpar ::
              (renderCore (PExpr.bin Bop.add (PExpr.name "x") (PExpr.name "y")) ++ [Tok.rpar])
          else renderCore (PExpr.bin Bop.add (PExpr.name "x") (PExpr.name "y"))) ∧
      ParsesTo 4 (render 4 (PExpr.bin Bop.add (PExpr.name "x") (PExpr.name "y")))
        (PExpr.bin Bop.add (PExpr.name "x") (PExpr.name "y")) [] :=
  C2_roundtrip (PExpr.bin Bop.add (PExpr.name "x") (PExpr.name "y")) 4 (by decide) (by decide)

/-- Claim C2 (counterexample to the no-redundant-parens clause): for `a ** -b`
the printer renders the right operand of `**` at level 16 and so emits
`a ** (-b)`; deleting the emitted parentheses leaves a token string that still
parses to the very same tree, because the parser accepts a factor (level 15)
there.  Hence an emitted parenthesis need not change the parsed tree. -/
theorem C2_counterexample :
    render 4 (PExpr.bin .pow (.name "a") (.unary .usub (.name "b")))
      = [Tok.name "a", Tok.op "**", Tok.lpar, Tok.op "-", Tok.name "b", Tok.rpar] ∧
    parseL 40 4 [Tok.name "a", Tok.op "**", Tok.lpar, Tok.op "-", Tok.name "b", Tok.rpar]
      = some (PExpr.bin .pow (.name "a") (.unary .usub (.name "b")), []) ∧
    parseL 40 4 [Tok.name "a", Tok.op "**", Tok.op "-", Tok.name "b"]
      = some (PExpr.bin .pow (.name "a") (.unary .usub (.name "b")), []) :=
  ⟨rfl, rfl, rfl⟩

end Minipy3
